import Mathlib

/-!
Verification of the nixbook sync engine (src/sync.js v2, src/db.js).

The JavaScript source is shallowly embedded: every record kind becomes a
Lean structure, JavaScript `Map` objects become lists of records updated
with JS `Map.set` semantics (updating an existing key keeps its position,
a new key is appended), and the asynchronous store code becomes explicit
state passing over the record lists.  Timestamps are `Nat` milliseconds;
JS falsy defaults (`x || d`) are modelled explicitly, with absent numeric
fields as `Option Nat` where the source distinguishes absence.
-/

namespace Nixbook

/-! ## JS numeric truthiness helpers -/

/-- JS `x || d` for a number `x`: `0` is falsy. -/
def orDefault (x d : Nat) : Nat := if x = 0 then d else x

/-- Truthiness of an optional JS number: absent and `0` are falsy. -/
def numTruthy : Option Nat → Bool
  | none => false
  | some x => x ≠ 0

/-- JS `a || b` for optional numbers (`0` and absent are falsy). -/
def numOr (a b : Option Nat) : Option Nat := if numTruthy a then a else b

/-- JS `a || b || null` for optional numbers, as in `paragraphCount` writes. -/
def numOrNull (a b : Option Nat) : Option Nat :=
  if numTruthy a then a else if numTruthy b then b else none

/-- JS `a || b` for strings: the empty string is falsy. -/
def strOr (a b : String) : String := if a = "" then b else a

/-- JS `a || b` where `a` is an optional object (all objects are truthy). -/
def objOr (a b : Option Nat) : Option Nat :=
  match a with
  | some v => some v
  | none => b

/-- JS `word.toLowerCase()`, modelled character-wise so that it evaluates
inside the kernel. -/
def jsToLower (s : String) : String := String.mk (s.data.map Char.toLower)

/-- JS spread `{...x, ...y}` on one optional field: `y`'s value wins when the
field is present on `y`, otherwise `x`'s value is kept. -/
def optSpread (x y : Option α) : Option α :=
  match y with
  | some v => some v
  | none => x

/-! ## JS `Map` over records keyed by a key function

All maps in `sync.js` key a record by one of its own fields
(`book.id`, `w.word`, `` `${hl.bookId}:${hl.text}` ``), so a map is
modelled as the list of its values in insertion order.  `Map.set` on an
existing key replaces the value in place; on a new key it appends. -/

section KeyedMap

variable {α : Type} {κ : Type} [DecidableEq κ]

/-- `Map.get`: first value whose key is `i` (keys are unique by construction). -/
def afind (k : α → κ) (i : κ) : List α → Option α
  | [] => none
  | x :: t => if k x = i then some x else afind k i t

/-- `Map.set`: replace the value stored under key `k x`, or append it. -/
def msetBy (k : α → κ) (m : List α) (x : α) : List α :=
  if (afind k (k x) m).isSome then
    m.map (fun y => if k y = k x then x else y)
  else
    m ++ [x]

/-- A for-loop of unconditional `Map.set` calls over `xs`. -/
def insAll (k : α → κ) : List α → List α → List α
  | m, [] => m
  | m, x :: t => insAll k (msetBy k m x) t

end KeyedMap

/-! ## Data model (record shapes of src/db.js and the sync snapshot) -/

/-- A book record.  The exported sync metadata carries the first eight
fields (src/sync.js `exportLocalData`); the stored record may additionally
carry locally-only fields, represented by `coverBlob` (blob handle, opaque)
and `coverDataURL`.  `progress` is copied opaquely by all sync code, so its
numeric type is irrelevant; it is modelled as `Nat`. -/
structure Book where
  id : Nat
  title : String
  author : String
  addedAt : Nat
  lastReadAt : Option Nat
  progress : Nat
  lastLocation : Option String
  paragraphCount : Option Nat
  coverBlob : Option Nat
  coverDataURL : Option String
  deriving DecidableEq, Repr

/-- A vocabulary record (src/db.js `saveWord` shape).  `easeFactor` is
scaled to an integer (2.5 becomes 25); sync code only copies it.
`deletedAt` is the optional soft-delete timestamp. -/
structure Vocab where
  word : String
  translation : String
  addedAt : Nat
  book : String
  count : Nat
  nextReview : Nat
  interval : Nat
  easeFactor : Nat
  deletedAt : Option Nat
  deriving DecidableEq, Repr

/-- A highlight record.  Identity key is `bookId:text` (book ids are
numeric, so the pair is a faithful, injective rendering of the
concatenated key).  `id` is the auto-increment storage handle, absent on
records not yet stored. -/
structure Highlight where
  bookId : Nat
  text : String
  bookTitle : String
  addedAt : Nat
  deletedAt : Option Nat
  id : Option Nat
  deriving DecidableEq, Repr

/-- A legacy v1 vocabulary tombstone `{word, deletedAt}`. -/
structure VocabTomb where
  word : String
  deletedAt : Option Nat
  deriving DecidableEq, Repr

/-- A legacy v1 highlight tombstone `{bookId, text, deletedAt}`. -/
structure HlTomb where
  bookId : Nat
  text : String
  deletedAt : Option Nat
  deriving DecidableEq, Repr

/-- A sync snapshot (the remote metadata JSON / `exportLocalData` result).
v2 snapshots carry no tombstone arrays; an absent array behaves exactly
like an empty one in `mergeData`, so both are modelled as `[]`.
`version`/`exportedAt` are bookkeeping not touched by any claim. -/
structure Snapshot where
  books : List Book
  vocabulary : List Vocab
  highlights : List Highlight
  deletedVocab : List VocabTomb
  deletedHighlights : List HlTomb
  deriving DecidableEq, Repr

/-- Key functions for the three record kinds. -/
def bkey (b : Book) : Nat := b.id

def vkey (w : Vocab) : String := w.word

def hkey (h : Highlight) : Nat × String := (h.bookId, h.text)

/-- The storage key of a highlight: its auto-increment `id`. -/
def hid (h : Highlight) : Option Nat := h.id

/-- `recordTimestamp` (src/sync.js line 113): `max(addedAt || 0, deletedAt || 0)`. -/
def recTSv (w : Vocab) : Nat := max w.addedAt (w.deletedAt.getD 0)

/-- `recordTimestamp` applied to a highlight. -/
def recTSh (h : Highlight) : Nat := max h.addedAt (h.deletedAt.getD 0)

/-- JS `book.lastReadAt || 0`. -/
def readAt (b : Book) : Nat := b.lastReadAt.getD 0

/-! ## Merge engine (src/sync.js v2 `mergeData`, lines 117-199) -/

/-- Book pass over the remote list: remote wins only on strictly larger
`lastReadAt` (lines 125-137). -/
def mergeBooksGo (m : List Book) : List Book → List Book
  | [] => m
  | b :: t =>
    mergeBooksGo
      (match afind bkey b.id m with
       | some existing => if readAt b > readAt existing then msetBy bkey m b else m
       | none => msetBy bkey m b) t

/-- Books merge: seed the map with the local books, then run the remote pass. -/
def mergeBooks (localBooks remoteBooks : List Book) : List Book :=
  mergeBooksGo (insAll bkey [] localBooks) remoteBooks

/-- Tombstone map for v1 remote vocab data: `set(t.word, t.deletedAt || 0)`. -/
def buildVocabTombs (ts : List VocabTomb) : List (String × Nat) :=
  insAll Prod.fst [] (ts.map (fun t => (t.word, t.deletedAt.getD 0)))

/-- Tombstone map for v1 remote highlight data. -/
def buildHlTombs (ts : List HlTomb) : List ((Nat × String) × Nat) :=
  insAll Prod.fst [] (ts.map (fun t => ((t.bookId, t.text), t.deletedAt.getD 0)))

/-- Lines 151-153: fold a v1 tombstone into a record that has no
(truthy) `deletedAt` yet. -/
def applyVocabTomb (tombs : List (String × Nat)) (w : Vocab) : Vocab :=
  match afind Prod.fst w.word tombs with
  | some td => if numTruthy w.deletedAt then w else { w with deletedAt := some td.2 }
  | none => w

/-- Tombstone folding for a highlight (lines 183-185). -/
def applyHlTomb (tombs : List ((Nat × String) × Nat)) (h : Highlight) : Highlight :=
  match afind Prod.fst (hkey h) tombs with
  | some td => if numTruthy h.deletedAt then h else { h with deletedAt := some td.2 }
  | none => h

/-- JS spread `{ ...a, ...b }` on two vocabulary records: all of `b`'s
always-present fields win; the optional `deletedAt` falls back to `a`'s. -/
def spreadVocab (a b : Vocab) : Vocab :=
  { b with deletedAt := optSpread a.deletedAt b.deletedAt }

/-- The body of the vocabulary LWW loop after tombstone folding
(lines 154-169): first occurrence of a key is inserted, a later one
replaces it only with a strictly newer timestamp, otherwise the existing
entry keeps its fields with `count`/`interval` maxed. -/
def mergeVocabCore (m : List Vocab) (w : Vocab) : List Vocab :=
  match afind vkey w.word m with
  | none => msetBy vkey m w
  | some existing =>
    if recTSv w > recTSv existing then
      msetBy vkey m (spreadVocab existing w)
    else
      msetBy vkey m
        { spreadVocab w existing with
          count := max (orDefault existing.count 1) (orDefault w.count 1)
          interval := max existing.interval w.interval }

/-- One step of the vocabulary LWW loop (lines 148-170). -/
def mergeVocabStep (tombs : List (String × Nat)) (m : List Vocab) (w0 : Vocab) :
    List Vocab :=
  mergeVocabCore m (applyVocabTomb tombs w0)

/-- The vocabulary loop body, iterating `[...remote, ...local]`. -/
def mergeVocabGo (tombs : List (String × Nat)) : List Vocab → List Vocab → List Vocab
  | m, [] => m
  | m, w :: t => mergeVocabGo tombs (mergeVocabStep tombs m w) t

/-- Vocabulary merge: LWW-Element-Set by `word`. -/
def mergeVocab (tombs : List (String × Nat)) (remoteV localV : List Vocab) :
    List Vocab :=
  mergeVocabGo tombs [] (remoteV ++ localV)

/-- The body of the highlight LWW loop after tombstone folding: the whole
record with the latest `recordTimestamp` is kept, first-seen wins ties. -/
def mergeHlCore (m : List Highlight) (h : Highlight) : List Highlight :=
  match afind hkey (hkey h) m with
  | none => msetBy hkey m h
  | some existing => if recTSh h > recTSh existing then msetBy hkey m h else m

/-- One step of the highlight LWW loop (lines 180-196). -/
def mergeHlStep (tombs : List ((Nat × String) × Nat)) (m : List Highlight)
    (h0 : Highlight) : List Highlight :=
  mergeHlCore m (applyHlTomb tombs h0)

/-- The highlight loop body, iterating `[...remote, ...local]`. -/
def mergeHlGo (tombs : List ((Nat × String) × Nat)) :
    List Highlight → List Highlight → List Highlight
  | m, [] => m
  | m, h :: t => mergeHlGo tombs (mergeHlStep tombs m h) t

/-- Highlights merge: LWW-Element-Set by `bookId:text`. -/
def mergeHighlights (tombs : List ((Nat × String) × Nat))
    (remoteH localH : List Highlight) : List Highlight :=
  mergeHlGo tombs [] (remoteH ++ localH)

/-- `mergeData(local, remote)` (src/sync.js lines 117-199).  A `null`
remote returns the local snapshot unchanged; otherwise the three record
collections are merged per strategy.  The merged snapshot carries no
tombstone arrays. -/
def mergeData (localD : Snapshot) (remoteD : Option Snapshot) : Snapshot :=
  match remoteD with
  | none => localD
  | some r =>
    { books := mergeBooks localD.books r.books
      vocabulary := mergeVocab (buildVocabTombs r.deletedVocab) r.vocabulary localD.vocabulary
      highlights := mergeHighlights (buildHlTombs r.deletedHighlights) r.highlights localD.highlights
      deletedVocab := []
      deletedHighlights := [] }

/-! ## Local store state and apply/write-back protocol
(src/sync.js v2 `applyMergedData`, lines 203-296) -/

/-- The local IndexedDB state relevant to sync: the `vocabulary` store
(keyPath `word`), the `highlights` store (auto-increment keyPath `id`,
with its next auto-increment value), and the `books` store (keyPath `id`). -/
structure Store where
  vocabulary : List Vocab
  highlights : List Highlight
  nextHlId : Nat
  books : List Book
  deriving DecidableEq, Repr

/-- IndexedDB `put` on the highlights store: upsert by the `id` key. -/
def idbPutHl (st : List Highlight) (r : Highlight) : List Highlight :=
  msetBy hid st r

/-- JS spread `{ ...a, ...b }` on two highlight records. -/
def spreadHl (a b : Highlight) : Highlight :=
  { b with
    deletedAt := optSpread a.deletedAt b.deletedAt
    id := optSpread a.id b.id }

/-- The highlight apply loop (lines 230-243).  `m` is the pre-read map of
existing records by `bookId:text` key; `st` the store contents; `nid` the
auto-increment counter.  A merged record matching an existing key is
`put` back under the existing id when its `recordTimestamp` is at least
the existing one's; otherwise it is skipped.  Unmatched records are
`add`ed with their `id` stripped, receiving a fresh id. -/
def applyHlGo (m : List Highlight) :
    List Highlight → Nat → List Highlight → List Highlight × Nat
  | st, nid, [] => (st, nid)
  | st, nid, h :: t =>
    match afind hkey (hkey h) m with
    | some existing =>
      applyHlGo m
        (if recTSh h ≥ recTSh existing then
          idbPutHl st { spreadHl existing h with id := existing.id }
        else st) nid t
    | none => applyHlGo m (st ++ [{ h with id := some nid }]) (nid + 1) t

/-- The record written when the merged book is strictly newer
(lines 270-279): progress/location/timestamp and title/author are adopted
from the merged book, locally-only fields are preserved. -/
def adoptProgress (existing b : Book) : Book :=
  { existing with
    progress := b.progress
    lastLocation := b.lastLocation
    lastReadAt := b.lastReadAt
    title := b.title
    author := b.author
    coverBlob := objOr b.coverBlob existing.coverBlob
    paragraphCount := numOrNull b.paragraphCount existing.paragraphCount }

/-- The metadata-only update written on an exact `lastReadAt` tie
(lines 282-287): `progress`, `lastLocation` and `lastReadAt` keep the
existing values. -/
def adoptMeta (existing b : Book) : Book :=
  { existing with
    title := strOr b.title existing.title
    author := strOr b.author existing.author
    paragraphCount := numOrNull b.paragraphCount existing.paragraphCount }

/-- The book write pass (lines 259-292).  `m` is the map of books read
before the write transaction; each merged book is compared against the
pre-read record: strictly newer `lastReadAt` adopts progress fields,
equal adopts metadata only, older is skipped; unknown ids are `put` as
new records. -/
def applyBookStep (m st : List Book) (b : Book) : List Book :=
  match afind bkey b.id m with
  | none => msetBy bkey st b
  | some existing =>
    if readAt b > readAt existing then msetBy bkey st (adoptProgress existing b)
    else if readAt b = readAt existing then msetBy bkey st (adoptMeta existing b)
    else st

/-- The book apply loop. -/
def applyBooksGo (m : List Book) : List Book → List Book → List Book
  | st, [] => st
  | st, b :: t => applyBooksGo m (applyBookStep m st b) t

/-- `applyMergedData(data)` on a store state: vocabulary is `put`
unconditionally by `word`; highlights are merged by `bookId:text` against
a pre-read key map, preserving storage ids; books are LWW-written against
a pre-read book map.  No delete or clear is ever issued. -/
def applyMergedData (store : Store) (data : Snapshot) : Store :=
  let v := insAll vkey store.vocabulary data.vocabulary
  let hm := insAll hkey [] store.highlights
  let hres := applyHlGo hm store.highlights store.nextHlId data.highlights
  let b := applyBooksGo store.books store.books data.books
  { vocabulary := v, highlights := hres.1, nextHlId := hres.2, books := b }

/-! ## db.js accessors and upsert paths -/

/-- Projection of a stored book to the exported sync metadata
(src/sync.js `exportLocalData`, lines 29-38): eight fields, with
`paragraphCount: b.paragraphCount || null` and no local-only fields. -/
def exportBookMeta (b : Book) : Book :=
  { id := b.id
    title := b.title
    author := b.author
    addedAt := b.addedAt
    lastReadAt := b.lastReadAt
    progress := b.progress
    lastLocation := b.lastLocation
    paragraphCount := numOr b.paragraphCount none
    coverBlob := none
    coverDataURL := none }

/-- `exportLocalData()` (v2): full book/vocabulary/highlight collections,
soft-deleted records included, no tombstone arrays. -/
def exportLocalData (store : Store) : Snapshot :=
  { books := store.books.map exportBookMeta
    vocabulary := store.vocabulary
    highlights := store.highlights
    deletedVocab := []
    deletedHighlights := [] }

/-- `getAllVocabulary()`: every record, soft-deleted included. -/
def getAllVocabulary (store : Store) : List Vocab := store.vocabulary

/-- `getActiveVocabulary()` (src/db.js lines 177-180):
`all.filter(w => !w.deletedAt)`. -/
def getActiveVocabulary (store : Store) : List Vocab :=
  (getAllVocabulary store).filter (fun w => !numTruthy w.deletedAt)

/-- `getAllHighlights()`: every record, soft-deleted included. -/
def getAllHighlights (store : Store) : List Highlight := store.highlights

/-- `getActiveHighlights()` (src/db.js lines 270-273):
`all.filter(h => !h.deletedAt)`. -/
def getActiveHighlights (store : Store) : List Highlight :=
  (getAllHighlights store).filter (fun h => !numTruthy h.deletedAt)

/-- Modelled from the spec: `isActive(record) = deletedAt == null || addedAt > deletedAt`
(spec section 4.1).  Stated over a vocabulary record for comparison with
the accessor actually implemented in src/db.js. -/
def specIsActiveV (w : Vocab) : Bool :=
  w.deletedAt.isNone || decide (w.addedAt > w.deletedAt.getD 0)

/-- Modelled from the spec: the same liveness rule over a highlight record. -/
def specIsActiveH (h : Highlight) : Bool :=
  h.deletedAt.isNone || decide (h.addedAt > h.deletedAt.getD 0)

/-- A merged vocabulary record `g` agrees with the LWW winner `w` on every
always-present field except the element-wise-maxed `count`/`interval`, and
on `deletedAt` whenever the winner carries one. -/
def vocabAgreesWinner (g w : Vocab) : Prop :=
  g.word = w.word ∧ g.translation = w.translation ∧ g.addedAt = w.addedAt ∧
  g.book = w.book ∧ g.nextReview = w.nextReview ∧ g.easeFactor = w.easeFactor ∧
  (w.deletedAt.isSome → g.deletedAt = w.deletedAt)

/-- `saveWord(word, translation, bookTitle)` at time `now`
(src/db.js lines 91-122).  A fresh word is stored with `count 1` and
`addedAt = now`; an existing record (even a soft-deleted one) has its
count bumped, its translation filled only if empty, its `deletedAt`
removed when truthy, and `addedAt = existing.addedAt || now` — the old
`addedAt` is kept whenever it is non-zero. -/
def saveWord (store : List Vocab) (now : Nat)
    (word translation bookTitle : String) : List Vocab :=
  let key := jsToLower word
  match afind vkey key store with
  | none =>
    msetBy vkey store
      { word := key, translation := translation, addedAt := now
        book := bookTitle, count := 1, nextReview := now
        interval := 0, easeFactor := 25, deletedAt := none }
  | some existing =>
    msetBy vkey store
      { existing with
        count := orDefault existing.count 1 + 1
        translation :=
          if translation ≠ "" ∧ existing.translation = "" then translation
          else existing.translation
        deletedAt := if numTruthy existing.deletedAt then none else existing.deletedAt
        addedAt := orDefault existing.addedAt now }

/-- `deleteWord(word)` at time `now` (src/db.js lines 183-199): soft
delete, setting `deletedAt = now` on the record if present. -/
def deleteWord (store : List Vocab) (now : Nat) (word : String) : List Vocab :=
  match afind vkey (jsToLower word) store with
  | none => store
  | some existing => msetBy vkey store { existing with deletedAt := some now }

/-- `saveHighlight(highlight)` at time `now` (src/db.js lines 214-246).
The incoming record's `addedAt` defaults to `now`; the store is scanned in
cursor (id) order for a record with the same `bookId` and `text` — the
first match is revived in place (`deletedAt` removed, `addedAt` set to the
incoming value, `bookTitle` filled), otherwise the record is added fresh
under the next auto-increment id. -/
def saveHighlight (store : List Highlight) (nid : Nat) (now : Nat)
    (hl : Highlight) : List Highlight × Nat :=
  let addedAt := orDefault hl.addedAt now
  match store.find? (fun e => e.bookId = hl.bookId && e.text = hl.text) with
  | some existing =>
    (idbPutHl store
      { existing with
        deletedAt := none
        addedAt := addedAt
        bookTitle := strOr hl.bookTitle existing.bookTitle }, nid)
  | none =>
    (store ++ [{ hl with addedAt := addedAt, id := some nid }], nid + 1)

/-! ## Translation sync (src/sync.js `syncBookTranslations`, lines 353-376)

The per-book merge core: a JS object keyed by hash, filled first from the
remote array, then from the local entries, local overwriting remote. -/

/-- The `merged` object: remote entries inserted first, local entries
second, so a local translation wins on a shared hash. -/
def mergeTranslations (remoteT : Option (List (String × String)))
    (localT : List (String × String)) : List (String × String) :=
  let m0 : List (String × String) :=
    match remoteT with
    | some rs => insAll Prod.fst [] rs
    | none => []
  insAll Prod.fst m0 localT

/-! ## Orchestrator (src/sync.js v2 `syncWithDropbox`, lines 50-110)

External effects are injected as outcomes: the metadata download and
upload either produce a value or reject with a message, and `tail`
stands for an uncaught exception thrown after the upload stage (local
storage failure in the book-file/translation loops, whose per-item
network failures are caught internally and never thrown). -/

/-- Injected outcomes of the external calls made by one sync run. -/
structure SyncEnv where
  configured : Bool
  loggedIn : Bool
  download : Except String (Option Snapshot)
  upload : Except String Unit
  tail : Except String Unit
  deriving Repr

/-- The `{ success, error }` result object. -/
structure SyncOutcome where
  success : Bool
  error : Option String
  deriving DecidableEq, Repr

/-- `syncWithDropbox` (v2): a download rejection is caught in-line, a
progress message is emitted and the remote is treated as `null`; the
merge result is applied to the store; an upload rejection is caught,
reported through the progress callback and logged, and the run continues;
only an exception escaping those guards reaches the outer catch and
produces `{ success: false }`.  Returns the outcome, the resulting store
and the progress messages. -/
def syncWithDropbox (env : SyncEnv) (store : Store) :
    SyncOutcome × Store × List String :=
  if !(env.configured && env.loggedIn) then
    ({ success := false, error := some "Not configured or not logged in" }, store, [])
  else
    let dl : Option Snapshot × List String :=
      match env.download with
      | .ok r => (r, ["正在下载云端数据..."])
      | .error m => (none, ["正在下载云端数据...", "❌ 下载失败: " ++ m])
    let localData := exportLocalData store
    let merged := mergeData localData dl.1
    let store1 := applyMergedData store merged
    let upMsgs : List String :=
      match env.upload with
      | .ok _ => ["上传成功"]
      | .error m => ["❌ 上传失败: " ++ m]
    match env.tail with
    | .error m => ({ success := false, error := some m }, store1, dl.2 ++ upMsgs)
    | .ok _ => ({ success := true, error := none }, store1, dl.2 ++ upMsgs)

/-! ## Generic lemmas about the JS `Map` model -/

section KeyedMapLemmas

variable {α : Type} {κ : Type} [DecidableEq κ] {k : α → κ}

theorem afind_eq_key {i : κ} {l : List α} {x : α} (h : afind k i l = some x) :
    k x = i := by
  induction l with
  | nil => simp [afind] at h
  | cons y t ih =>
    by_cases hy : k y = i
    · simp [afind, hy] at h
      subst h; exact hy
    · simp [afind, hy] at h
      exact ih h

theorem afind_mem {i : κ} {l : List α} {x : α} (h : afind k i l = some x) :
    x ∈ l := by
  induction l with
  | nil => simp [afind] at h
  | cons y t ih =>
    by_cases hy : k y = i
    · simp [afind, hy] at h
      subst h; exact List.mem_cons_self _ _
    · simp [afind, hy] at h
      exact List.mem_cons_of_mem _ (ih h)

theorem afind_isSome_of_mem {l : List α} {x : α} (h : x ∈ l) :
    (afind k (k x) l).isSome := by
  induction l with
  | nil => simp at h
  | cons y t ih =>
    by_cases hy : k y = k x
    · simp [afind, hy]
    · rcases List.mem_cons.mp h with rfl | hmem
      · exact absurd rfl hy
      · simpa [afind, hy] using ih hmem

theorem afind_append {i : κ} {m1 m2 : List α} :
    afind k i (m1 ++ m2) =
      match afind k i m1 with
      | some x => some x
      | none => afind k i m2 := by
  induction m1 with
  | nil => simp [afind]
  | cons y t ih =>
    by_cases hy : k y = i
    · simp [afind, hy]
    · simpa [afind, hy] using ih

theorem afind_self_of_nodup {l : List α} (hnd : (l.map k).Nodup) {x : α}
    (hx : x ∈ l) : afind k (k x) l = some x := by
  induction l with
  | nil => simp at hx
  | cons y t ih =>
    rcases List.mem_cons.mp hx with rfl | hmem
    · simp [afind]
    · have hy : k y ≠ k x := by
        intro hcontra
        have : k x ∈ t.map k := List.mem_map_of_mem k hmem
        rw [← hcontra] at this
        exact (List.nodup_cons.mp hnd).1 this
      simp [afind, hy]
      exact ih (List.nodup_cons.mp hnd).2 hmem

theorem afind_mapRepl_eq {m : List α} {x : α} :
    afind k (k x) (m.map (fun y => if k y = k x then x else y)) =
      if (afind k (k x) m).isSome then some x else none := by
  induction m with
  | nil => simp [afind]
  | cons y t ih =>
    by_cases hy : k y = k x
    · simp [afind, hy]
    · simp only [List.map_cons, if_neg hy]
      simpa [afind, hy] using ih

theorem afind_mapRepl_ne {i : κ} {m : List α} {x : α} (hne : i ≠ k x) :
    afind k i (m.map (fun y => if k y = k x then x else y)) = afind k i m := by
  induction m with
  | nil => simp [afind]
  | cons y t ih =>
    by_cases hy : k y = k x
    · have h1 : k x ≠ i := fun h => hne h.symm
      have h2 : k y ≠ i := by rw [hy]; exact h1
      simp only [List.map_cons, if_pos hy]
      simpa [afind, h1, h2] using ih
    · simp only [List.map_cons, if_neg hy]
      by_cases hyi : k y = i
      · simp [afind, hyi]
      · simpa [afind, hyi] using ih

theorem afind_msetBy {i : κ} {m : List α} {x : α} :
    afind k i (msetBy k m x) = if i = k x then some x else afind k i m := by
  unfold msetBy
  by_cases hs : (afind k (k x) m).isSome
  · rw [if_pos hs]
    by_cases hik : i = k x
    · subst hik
      rw [if_pos rfl, afind_mapRepl_eq, if_pos hs]
    · rw [if_neg hik, afind_mapRepl_ne hik]
  · rw [if_neg hs]
    rw [afind_append]
    by_cases hik : i = k x
    · subst hik
      have hnone : afind k (k x) m = none := Option.not_isSome_iff_eq_none.mp hs
      rw [hnone]
      simp [afind]
    · have hki : ¬k x = i := fun hc => hik hc.symm
      cases h : afind k i m
      · simp [afind, hik, hki]
      · simp [hik]

theorem afind_insAll_notmem {i : κ} {m xs : List α}
    (h : ∀ x ∈ xs, k x ≠ i) :
    afind k i (insAll k m xs) = afind k i m := by
  induction xs generalizing m with
  | nil => rfl
  | cons x t ih =>
    have hx : k x ≠ i := h x (List.mem_cons_self _ _)
    rw [insAll, ih (fun y hy => h y (List.mem_cons_of_mem _ hy)), afind_msetBy,
      if_neg (fun hc => hx hc.symm)]

theorem afind_insAll {i : κ} {m xs : List α} (hnd : (xs.map k).Nodup) :
    afind k i (insAll k m xs) =
      match afind k i xs with
      | some x => some x
      | none => afind k i m := by
  induction xs generalizing m with
  | nil => simp [insAll, afind]
  | cons x t ih =>
    rw [insAll]
    by_cases hix : i = k x
    · subst hix
      have hnot : ∀ y ∈ t, k y ≠ k x := by
        intro y hy hc
        have : k x ∈ t.map k := by rw [← hc]; exact List.mem_map_of_mem k hy
        exact (List.nodup_cons.mp hnd).1 this
      rw [afind_insAll_notmem hnot, afind_msetBy, if_pos rfl]
      simp [afind]
    · have hxk : k x ≠ i := fun h => hix h.symm
      rw [ih (List.nodup_cons.mp hnd).2]
      simp only [afind, if_neg hxk]
      cases afind k i t
      · simp [afind_msetBy, if_neg hix]
      · simp

theorem msetBy_append_of_notfound {m : List α} {x : α}
    (h : afind k (k x) m = none) : msetBy k m x = m ++ [x] := by
  unfold msetBy
  rw [h]
  simp

theorem insAll_eq_append {m xs : List α}
    (hdisj : ∀ x ∈ xs, afind k (k x) m = none) (hnd : (xs.map k).Nodup) :
    insAll k m xs = m ++ xs := by
  induction xs generalizing m with
  | nil => simp [insAll]
  | cons x t ih =>
    rw [insAll, msetBy_append_of_notfound (hdisj x (List.mem_cons_self _ _))]
    rw [ih]
    · simp
    · intro y hy
      rw [afind_append]
      rw [hdisj y (List.mem_cons_of_mem _ hy)]
      have hyx : k y ≠ k x := by
        intro hc
        have : k x ∈ t.map k := by rw [← hc]; exact List.mem_map_of_mem k hy
        exact (List.nodup_cons.mp hnd).1 this
      have hxy : ¬k x = k y := fun hc => hyx hc.symm
      simp [afind, hxy]
    · exact (List.nodup_cons.mp hnd).2

theorem msetBy_self {m : List α} {x : α} (hnd : (m.map k).Nodup)
    (hx : afind k (k x) m = some x) : msetBy k m x = m := by
  unfold msetBy
  rw [hx]
  simp only [Option.isSome_some, if_pos]
  have : ∀ y ∈ m, (if k y = k x then x else y) = y := by
    intro y hy
    by_cases hyk : k y = k x
    · have hxm : x ∈ m := afind_mem hx
      have := List.inj_on_of_nodup_map hnd hy hxm hyk
      rw [if_pos hyk, this]
    · rw [if_neg hyk]
  rw [List.map_congr_left this]
  simp

theorem msetBy_isSome_mono {i : κ} {m : List α} {x : α}
    (h : (afind k i m).isSome) : (afind k i (msetBy k m x)).isSome := by
  rw [afind_msetBy]
  by_cases hik : i = k x
  · simp [hik]
  · simpa [hik] using h

theorem insAll_isSome_mono {i : κ} {m xs : List α}
    (h : (afind k i m).isSome) : (afind k i (insAll k m xs)).isSome := by
  induction xs generalizing m with
  | nil => exact h
  | cons x t ih => exact ih (msetBy_isSome_mono h)

end KeyedMapLemmas

/-! ## Lemmas about the book merge (`mergeBooks`) -/

theorem mergeBooksGo_afind_notmem {m rb : List Book} {i : Nat}
    (h : ∀ b ∈ rb, b.id ≠ i) :
    afind bkey i (mergeBooksGo m rb) = afind bkey i m := by
  induction rb generalizing m with
  | nil => rfl
  | cons b t ih =>
    have hbi : ¬i = bkey b := fun hc =>
      absurd hc.symm (h b (List.mem_cons_self _ _))
    rw [mergeBooksGo]
    rw [ih (fun y hy => h y (List.mem_cons_of_mem _ hy))]
    cases hfind : afind bkey b.id m with
    | none =>
      show afind bkey i (msetBy bkey m b) = afind bkey i m
      rw [afind_msetBy, if_neg hbi]
    | some ex =>
      show afind bkey i (if readAt b > readAt ex then msetBy bkey m b else m) =
        afind bkey i m
      by_cases hcmp : readAt b > readAt ex
      · rw [if_pos hcmp, afind_msetBy, if_neg hbi]
      · rw [if_neg hcmp]

theorem mergeBooksGo_afind {m rb : List Book} {i : Nat}
    (hnd : (rb.map bkey).Nodup) :
    afind bkey i (mergeBooksGo m rb) =
      match afind bkey i rb with
      | none => afind bkey i m
      | some r =>
        match afind bkey i m with
        | none => some r
        | some l => if readAt r > readAt l then some r else some l := by
  induction rb generalizing m with
  | nil => simp [mergeBooksGo, afind]
  | cons b t ih =>
    rw [mergeBooksGo]
    by_cases hib : i = b.id
    · subst hib
      have hnot : ∀ y ∈ t, y.id ≠ b.id := by
        intro y hy hc
        have : bkey b ∈ t.map bkey := by
          rw [show bkey b = bkey y from hc.symm]
          exact List.mem_map_of_mem bkey hy
        exact (List.nodup_cons.mp hnd).1 this
      rw [mergeBooksGo_afind_notmem hnot]
      have hb : afind bkey b.id (b :: t) = some b := by simp [afind, bkey]
      rw [hb]
      cases hfind : afind bkey b.id m with
      | none =>
        show afind bkey b.id (msetBy bkey m b) = some b
        rw [afind_msetBy]
        simp [bkey]
      | some ex =>
        show afind bkey b.id (if readAt b > readAt ex then msetBy bkey m b else m) =
          if readAt b > readAt ex then some b else some ex
        by_cases hcmp : readAt b > readAt ex
        · rw [if_pos hcmp, if_pos hcmp, afind_msetBy]
          simp [bkey]
        · rw [if_neg hcmp, if_neg hcmp, hfind]
    · have hbk : ¬bkey b = i := fun hc => hib hc.symm
      have ht : afind bkey i (b :: t) = afind bkey i t := by simp [afind, hbk]
      rw [ht]
      have hib2 : ¬i = bkey b := fun hc => hbk hc.symm
      have hstep :
          afind bkey i
            (match afind bkey b.id m with
             | some existing => if readAt b > readAt existing then msetBy bkey m b else m
             | none => msetBy bkey m b) = afind bkey i m := by
        cases hfind : afind bkey b.id m with
        | none =>
          show afind bkey i (msetBy bkey m b) = afind bkey i m
          rw [afind_msetBy, if_neg hib2]
        | some ex =>
          show afind bkey i (if readAt b > readAt ex then msetBy bkey m b else m) =
            afind bkey i m
          by_cases hcmp : readAt b > readAt ex
          · rw [if_pos hcmp, afind_msetBy, if_neg hib2]
          · rw [if_neg hcmp]
      rw [ih (List.nodup_cons.mp hnd).2, hstep]

theorem mergeBooksGo_self {m rb : List Book}
    (hself : ∀ b ∈ rb, afind bkey b.id m = some b) : mergeBooksGo m rb = m := by
  induction rb with
  | nil => rfl
  | cons b t ih =>
    rw [mergeBooksGo, hself b (List.mem_cons_self _ _)]
    simp only [gt_iff_lt, lt_irrefl, if_false]
    exact ih (fun y hy => hself y (List.mem_cons_of_mem _ hy))

theorem insAll_books_id {bs : List Book} (hnd : (bs.map bkey).Nodup) :
    insAll bkey [] bs = bs := by
  have h1 : insAll bkey ([] : List Book) bs = [] ++ bs :=
    insAll_eq_append (fun x _ => rfl) hnd
  simpa using h1

/-! ## Lemmas about the book apply pass (`applyBooksGo`) -/

theorem applyBookStep_afind_ne {m st : List Book} {b : Book} {i : Nat}
    (hne : b.id ≠ i) :
    afind bkey i (applyBookStep m st b) = afind bkey i st := by
  unfold applyBookStep
  have hbi : ¬i = bkey b := fun hc => hne hc.symm
  cases hfind : afind bkey b.id m with
  | none =>
    show afind bkey i (msetBy bkey st b) = afind bkey i st
    rw [afind_msetBy, if_neg hbi]
  | some existing =>
    have hex2 : existing.id = b.id := afind_eq_key hfind
    have hni : ¬i = existing.id := fun hc => hne ((hc.trans hex2).symm)
    by_cases h1 : readAt b > readAt existing
    · simp [h1, afind_msetBy, bkey, adoptProgress, hni]
    · by_cases h2 : readAt b = readAt existing
      · simp [h1, h2, afind_msetBy, bkey, adoptMeta, hni]
      · simp [h1, h2]

theorem applyBooksGo_afind_notmem {m st bs : List Book} {i : Nat}
    (h : ∀ b ∈ bs, b.id ≠ i) :
    afind bkey i (applyBooksGo m st bs) = afind bkey i st := by
  induction bs generalizing st with
  | nil => rfl
  | cons b t ih =>
    rw [applyBooksGo, ih (fun y hy => h y (List.mem_cons_of_mem _ hy)),
      applyBookStep_afind_ne (h b (List.mem_cons_self _ _))]

theorem applyBooksGo_append {m st : List Book} {xs ys : List Book} :
    applyBooksGo m st (xs ++ ys) = applyBooksGo m (applyBooksGo m st xs) ys := by
  induction xs generalizing st with
  | nil => rfl
  | cons b t ih => rw [List.cons_append, applyBooksGo, applyBooksGo, ih]

/-! ## Lemmas about the LWW element-set merges -/

theorem optSpread_self {x : Option α} : optSpread x x = x := by
  cases x <;> rfl

theorem applyVocabTomb_nil {w : Vocab} : applyVocabTomb [] w = w := rfl

theorem applyHlTomb_nil {h : Highlight} : applyHlTomb [] h = h := rfl

theorem mergeVocabStep_nil {m : List Vocab} {w : Vocab} :
    mergeVocabStep [] m w = mergeVocabCore m w := rfl

theorem mergeHlStep_nil {m : List Highlight} {h : Highlight} :
    mergeHlStep [] m h = mergeHlCore m h := rfl

theorem mergeVocabGo_append {m xs ys : List Vocab} {tombs : List (String × Nat)} :
    mergeVocabGo tombs m (xs ++ ys) =
      mergeVocabGo tombs (mergeVocabGo tombs m xs) ys := by
  induction xs generalizing m with
  | nil => rfl
  | cons w t ih => rw [List.cons_append, mergeVocabGo, mergeVocabGo, ih]

theorem mergeHlGo_append {m xs ys : List Highlight}
    {tombs : List ((Nat × String) × Nat)} :
    mergeHlGo tombs m (xs ++ ys) = mergeHlGo tombs (mergeHlGo tombs m xs) ys := by
  induction xs generalizing m with
  | nil => rfl
  | cons h t ih => rw [List.cons_append, mergeHlGo, mergeHlGo, ih]

theorem mergeVocabGo_fresh {m xs : List Vocab}
    (hdisj : ∀ w ∈ xs, afind vkey w.word m = none)
    (hnd : (xs.map vkey).Nodup) : mergeVocabGo [] m xs = m ++ xs := by
  induction xs generalizing m with
  | nil => simp [mergeVocabGo]
  | cons w t ih =>
    rw [mergeVocabGo]
    have hstep : mergeVocabStep [] m w = m ++ [w] := by
      rw [mergeVocabStep_nil]
      unfold mergeVocabCore
      rw [hdisj w (List.mem_cons_self _ _)]
      exact msetBy_append_of_notfound (hdisj w (List.mem_cons_self _ _))
    rw [hstep, ih]
    · simp
    · intro y hy
      rw [afind_append, hdisj y (List.mem_cons_of_mem _ hy)]
      have hyw : ¬vkey w = y.word := by
        intro hc
        have hmem : vkey y ∈ t.map vkey := List.mem_map_of_mem vkey hy
        have : vkey w ∈ t.map vkey := by
          rw [show vkey w = vkey y from hc]; exact hmem
        exact (List.nodup_cons.mp hnd).1 this
      simp [afind, hyw]
    · exact (List.nodup_cons.mp hnd).2

theorem mergeHlGo_fresh {m xs : List Highlight}
    (hdisj : ∀ h ∈ xs, afind hkey (hkey h) m = none)
    (hnd : (xs.map hkey).Nodup) : mergeHlGo [] m xs = m ++ xs := by
  induction xs generalizing m with
  | nil => simp [mergeHlGo]
  | cons h t ih =>
    rw [mergeHlGo]
    have hstep : mergeHlStep [] m h = m ++ [h] := by
      rw [mergeHlStep_nil]
      unfold mergeHlCore
      rw [hdisj h (List.mem_cons_self _ _)]
      exact msetBy_append_of_notfound (hdisj h (List.mem_cons_self _ _))
    rw [hstep, ih]
    · simp
    · intro y hy
      rw [afind_append, hdisj y (List.mem_cons_of_mem _ hy)]
      have hyw : ¬hkey h = hkey y := by
        intro hc
        have : hkey h ∈ t.map hkey := by rw [hc]; exact List.mem_map_of_mem hkey hy
        exact (List.nodup_cons.mp hnd).1 this
      simp [afind, hyw]
    · exact (List.nodup_cons.mp hnd).2

theorem mergeVocabStep_afind_ne {m : List Vocab} {w : Vocab} {i : String}
    (hne : w.word ≠ i) :
    afind vkey i (mergeVocabStep [] m w) = afind vkey i m := by
  rw [mergeVocabStep_nil]
  unfold mergeVocabCore
  have hiw : ¬i = vkey w := fun hc => hne hc.symm
  cases hfind : afind vkey w.word m with
  | none =>
    show afind vkey i (msetBy vkey m w) = afind vkey i m
    rw [afind_msetBy, if_neg hiw]
  | some ex =>
    have hexw : ex.word = w.word := afind_eq_key hfind
    show afind vkey i
        (if recTSv w > recTSv ex then msetBy vkey m (spreadVocab ex w)
         else msetBy vkey m
           { spreadVocab w ex with
             count := max (orDefault ex.count 1) (orDefault w.count 1)
             interval := max ex.interval w.interval }) = afind vkey i m
    by_cases hcmp : recTSv w > recTSv ex
    · rw [if_pos hcmp, afind_msetBy,
        if_neg (show ¬i = vkey (spreadVocab ex w) from hiw)]
    · rw [if_neg hcmp, afind_msetBy,
        if_neg (show ¬i =
          vkey { spreadVocab w ex with
                 count := max (orDefault ex.count 1) (orDefault w.count 1)
                 interval := max ex.interval w.interval } by
          show ¬i = ex.word
          rw [hexw]
          exact hiw)]

theorem mergeVocabGo_afind_notmem {m xs : List Vocab} {i : String}
    (h : ∀ w ∈ xs, w.word ≠ i) :
    afind vkey i (mergeVocabGo [] m xs) = afind vkey i m := by
  induction xs generalizing m with
  | nil => rfl
  | cons w t ih =>
    rw [mergeVocabGo, ih (fun y hy => h y (List.mem_cons_of_mem _ hy)),
      mergeVocabStep_afind_ne (h w (List.mem_cons_self _ _))]

theorem mergeHlStep_afind_ne {m : List Highlight} {h : Highlight}
    {i : Nat × String} (hne : hkey h ≠ i) :
    afind hkey i (mergeHlStep [] m h) = afind hkey i m := by
  rw [mergeHlStep_nil]
  unfold mergeHlCore
  have hiw : ¬i = hkey h := fun hc => hne hc.symm
  cases hfind : afind hkey (hkey h) m with
  | none =>
    show afind hkey i (msetBy hkey m h) = afind hkey i m
    rw [afind_msetBy, if_neg hiw]
  | some ex =>
    show afind hkey i (if recTSh h > recTSh ex then msetBy hkey m h else m) =
      afind hkey i m
    by_cases hcmp : recTSh h > recTSh ex
    · rw [if_pos hcmp, afind_msetBy, if_neg hiw]
    · rw [if_neg hcmp]

theorem mergeHlGo_afind_notmem {m xs : List Highlight} {i : Nat × String}
    (h : ∀ x ∈ xs, hkey x ≠ i) :
    afind hkey i (mergeHlGo [] m xs) = afind hkey i m := by
  induction xs generalizing m with
  | nil => rfl
  | cons x t ih =>
    rw [mergeHlGo, ih (fun y hy => h y (List.mem_cons_of_mem _ hy)),
      mergeHlStep_afind_ne (h x (List.mem_cons_self _ _))]

theorem mergeVocabGo_afind_mem {m xs : List Vocab} {lv rv : Vocab} {i : String}
    (hnd : (xs.map vkey).Nodup) (hw : lv ∈ xs) (hki : lv.word = i)
    (hm : afind vkey i m = some rv) :
    afind vkey i (mergeVocabGo [] m xs) =
      some (if recTSv lv > recTSv rv then spreadVocab rv lv
        else { spreadVocab lv rv with
               count := max (orDefault rv.count 1) (orDefault lv.count 1)
               interval := max rv.interval lv.interval }) := by
  obtain ⟨l1, l2, rfl⟩ := List.append_of_mem hw
  rw [mergeVocabGo_append]
  have hl1 : ∀ y ∈ l1, y.word ≠ i := by
    intro y hy hc
    have hnd2 := hnd
    rw [List.map_append, List.nodup_append] at hnd2
    have hyk : vkey y ∈ l1.map vkey := List.mem_map_of_mem vkey hy
    refine hnd2.2.2 hyk ?_
    rw [show vkey y = vkey lv from by show y.word = lv.word; rw [hc, hki]]
    exact List.mem_map_of_mem vkey (List.mem_cons_self lv l2)
  rw [show mergeVocabGo [] (mergeVocabGo [] m l1) (lv :: l2) =
      mergeVocabGo [] (mergeVocabStep [] (mergeVocabGo [] m l1) lv) l2 from rfl]
  have hstep : afind vkey i (mergeVocabStep [] (mergeVocabGo [] m l1) lv) =
      some (if recTSv lv > recTSv rv then spreadVocab rv lv
        else { spreadVocab lv rv with
               count := max (orDefault rv.count 1) (orDefault lv.count 1)
               interval := max rv.interval lv.interval }) := by
    rw [mergeVocabStep_nil]
    unfold mergeVocabCore
    have hfind : afind vkey lv.word (mergeVocabGo [] m l1) = some rv := by
      rw [hki, mergeVocabGo_afind_notmem hl1, hm]
    rw [hfind]
    show afind vkey i
        (if recTSv lv > recTSv rv then
          msetBy vkey (mergeVocabGo [] m l1) (spreadVocab rv lv)
         else msetBy vkey (mergeVocabGo [] m l1)
           { spreadVocab lv rv with
             count := max (orDefault rv.count 1) (orDefault lv.count 1)
             interval := max rv.interval lv.interval }) = _
    by_cases hcmp : recTSv lv > recTSv rv
    · rw [if_pos hcmp, if_pos hcmp, afind_msetBy,
        if_pos (show i = vkey (spreadVocab rv lv) from hki.symm)]
    · have hexw : rv.word = lv.word := by
        have := afind_eq_key hm
        rw [hki]
        exact this
      rw [if_neg hcmp, if_neg hcmp, afind_msetBy,
        if_pos (show i =
          vkey { spreadVocab lv rv with
                 count := max (orDefault rv.count 1) (orDefault lv.count 1)
                 interval := max rv.interval lv.interval } by
          show i = rv.word
          rw [hexw, hki])]
  have hl2 : ∀ y ∈ l2, y.word ≠ i := by
    intro y hy hc
    have hnd2 := hnd
    rw [List.map_append, List.nodup_append] at hnd2
    have hcons := hnd2.2.1
    rw [List.map_cons, List.nodup_cons] at hcons
    apply hcons.1
    rw [show vkey lv = vkey y from by show lv.word = y.word; rw [hki, hc]]
    exact List.mem_map_of_mem vkey hy
  rw [mergeVocabGo_afind_notmem hl2, hstep]

theorem mergeHlGo_afind_mem {m xs : List Highlight} {lh rh : Highlight}
    {i : Nat × String} (hnd : (xs.map hkey).Nodup) (hw : lh ∈ xs)
    (hki : hkey lh = i) (hm : afind hkey i m = some rh) :
    afind hkey i (mergeHlGo [] m xs) =
      some (if recTSh lh > recTSh rh then lh else rh) := by
  obtain ⟨l1, l2, rfl⟩ := List.append_of_mem hw
  rw [mergeHlGo_append]
  have hl1 : ∀ y ∈ l1, hkey y ≠ i := by
    intro y hy hc
    have hnd2 := hnd
    rw [List.map_append, List.nodup_append] at hnd2
    have hyk : hkey y ∈ l1.map hkey := List.mem_map_of_mem hkey hy
    refine hnd2.2.2 hyk ?_
    rw [hc.trans hki.symm]
    exact List.mem_map_of_mem hkey (List.mem_cons_self lh l2)
  rw [show mergeHlGo [] (mergeHlGo [] m l1) (lh :: l2) =
      mergeHlGo [] (mergeHlStep [] (mergeHlGo [] m l1) lh) l2 from rfl]
  have hstep : afind hkey i (mergeHlStep [] (mergeHlGo [] m l1) lh) =
      some (if recTSh lh > recTSh rh then lh else rh) := by
    rw [mergeHlStep_nil]
    unfold mergeHlCore
    have hfind : afind hkey (hkey lh) (mergeHlGo [] m l1) = some rh := by
      rw [hki, mergeHlGo_afind_notmem hl1, hm]
    rw [hfind]
    show afind hkey i
        (if recTSh lh > recTSh rh then msetBy hkey (mergeHlGo [] m l1) lh
         else mergeHlGo [] m l1) = _
    by_cases hcmp : recTSh lh > recTSh rh
    · rw [if_pos hcmp, if_pos hcmp, afind_msetBy,
        if_pos (show i = hkey lh from hki.symm)]
    · rw [if_neg hcmp, if_neg hcmp]
      rw [hki] at hfind
      exact hfind
  have hl2 : ∀ y ∈ l2, hkey y ≠ i := by
    intro y hy hc
    have hnd2 := hnd
    rw [List.map_append, List.nodup_append] at hnd2
    have hcons := hnd2.2.1
    rw [List.map_cons, List.nodup_cons] at hcons
    apply hcons.1
    rw [hki.trans hc.symm]
    exact List.mem_map_of_mem hkey hy
  rw [mergeHlGo_afind_notmem hl2, hstep]

theorem mergeVocabCore_self {m : List Vocab} {w : Vocab}
    (hnd : (m.map vkey).Nodup) (hfind : afind vkey w.word m = some w)
    (hc : w.count ≠ 0) : mergeVocabCore m w = m := by
  unfold mergeVocabCore
  rw [hfind]
  show (if recTSv w > recTSv w then msetBy vkey m (spreadVocab w w)
    else msetBy vkey m
      { spreadVocab w w with
        count := max (orDefault w.count 1) (orDefault w.count 1)
        interval := max w.interval w.interval }) = m
  rw [if_neg (lt_irrefl _)]
  have hval :
      { spreadVocab w w with
        count := max (orDefault w.count 1) (orDefault w.count 1)
        interval := max w.interval w.interval } = w := by
    cases w with
    | mk wo tr ad bk cnt nr iv ef da =>
      simp only [Vocab.mk.injEq] at hc ⊢
      cases da <;> simp [spreadVocab, optSpread, orDefault, hc, Nat.max_self]
  rw [hval]
  exact msetBy_self hnd hfind

theorem mergeVocabGo_self {m xs : List Vocab} (hnd : (m.map vkey).Nodup)
    (hself : ∀ w ∈ xs, afind vkey w.word m = some w)
    (hc : ∀ w ∈ xs, w.count ≠ 0) : mergeVocabGo [] m xs = m := by
  induction xs with
  | nil => rfl
  | cons w t ih =>
    rw [mergeVocabGo, mergeVocabStep_nil,
      mergeVocabCore_self hnd (hself w (List.mem_cons_self _ _))
        (hc w (List.mem_cons_self _ _))]
    exact ih (fun y hy => hself y (List.mem_cons_of_mem _ hy))
      (fun y hy => hc y (List.mem_cons_of_mem _ hy))

theorem mergeHlCore_self {m : List Highlight} {h : Highlight}
    (hfind : afind hkey (hkey h) m = some h) : mergeHlCore m h = m := by
  unfold mergeHlCore
  rw [hfind]
  show (if recTSh h > recTSh h then msetBy hkey m h else m) = m
  rw [if_neg (lt_irrefl _)]

theorem mergeHlGo_self {m xs : List Highlight}
    (hself : ∀ h ∈ xs, afind hkey (hkey h) m = some h) :
    mergeHlGo [] m xs = m := by
  induction xs with
  | nil => rfl
  | cons h t ih =>
    rw [mergeHlGo, mergeHlStep_nil, mergeHlCore_self (hself h (List.mem_cons_self _ _))]
    exact ih (fun y hy => hself y (List.mem_cons_of_mem _ hy))

/-! ## Further generic map lemmas -/

section KeyedMapLemmas2

variable {α : Type} {κ : Type} [DecidableEq κ] {k : α → κ}

theorem mem_msetBy_of_ne {m : List α} {x r : α} (hx : x ∈ m)
    (hne : k x ≠ k r) : x ∈ msetBy k m r := by
  unfold msetBy
  by_cases hs : (afind k (k r) m).isSome
  · rw [if_pos hs]
    have hfix : (fun y => if k y = k r then r else y) x = x := if_neg hne
    rw [← hfix]
    exact List.mem_map_of_mem _ hx
  · rw [if_neg hs]
    exact List.mem_append_left _ hx

theorem afind_append_isSome_left {i : κ} {m1 m2 : List α}
    (h : (afind k i m1).isSome) : (afind k i (m1 ++ m2)).isSome := by
  rw [afind_append]
  cases hf : afind k i m1
  · rw [hf] at h; simp at h
  · simp

theorem mem_msetBy {m : List α} {x y : α} (hy : y ∈ msetBy k m x) :
    y ∈ m ∨ y = x := by
  unfold msetBy at hy
  by_cases hs : (afind k (k x) m).isSome
  · rw [if_pos hs] at hy
    obtain ⟨z, hz, hzy⟩ := List.mem_map.mp hy
    by_cases hzk : k z = k x
    · rw [if_pos hzk] at hzy
      right; exact hzy.symm
    · rw [if_neg hzk] at hzy
      left; exact hzy ▸ hz
  · rw [if_neg hs] at hy
    rcases List.mem_append.mp hy with h1 | h2
    · left; exact h1
    · right; exact List.mem_singleton.mp h2

theorem mem_insAll {m xs : List α} {y : α} (hy : y ∈ insAll k m xs) :
    y ∈ m ∨ y ∈ xs := by
  induction xs generalizing m with
  | nil => exact Or.inl hy
  | cons x t ih =>
    rcases ih hy with hm | ht
    · rcases mem_msetBy hm with h1 | rfl
      · left; exact h1
      · right; exact List.mem_cons_self _ _
    · right; exact List.mem_cons_of_mem _ ht

theorem msetBy_map_keys {m : List α} {x : α} :
    (msetBy k m x).map k =
      if (afind k (k x) m).isSome then m.map k else m.map k ++ [k x] := by
  unfold msetBy
  by_cases hs : (afind k (k x) m).isSome
  · rw [if_pos hs, if_pos hs, List.map_map]
    refine List.map_congr_left ?_
    intro y _
    by_cases hzk : k y = k x
    · simp [hzk]
    · simp [hzk]
  · rw [if_neg hs, if_neg hs, List.map_append]
    rfl

theorem mem_keys_iff {i : κ} {m : List α} :
    i ∈ m.map k ↔ (afind k i m).isSome := by
  constructor
  · intro h
    obtain ⟨y, hy, rfl⟩ := List.mem_map.mp h
    exact afind_isSome_of_mem hy
  · intro h
    obtain ⟨x, hx⟩ := Option.isSome_iff_exists.mp h
    rw [← afind_eq_key hx]
    exact List.mem_map_of_mem k (afind_mem hx)

theorem afind_isSome_iff_exists {i : κ} {m : List α} :
    (afind k i m).isSome ↔ ∃ x ∈ m, k x = i := by
  rw [← mem_keys_iff]
  simp [List.mem_map]

theorem insAll_keys_nodup {m xs : List α} (hm : (m.map k).Nodup) :
    ((insAll k m xs).map k).Nodup := by
  induction xs generalizing m with
  | nil => exact hm
  | cons x t ih =>
    refine ih ?_
    rw [msetBy_map_keys]
    by_cases hs : (afind k (k x) m).isSome
    · rw [if_pos hs]; exact hm
    · rw [if_neg hs]
      refine List.Nodup.append hm (List.nodup_singleton _) ?_
      intro a ha hax
      rw [List.mem_singleton.mp hax] at ha
      exact hs (mem_keys_iff.mp ha)

theorem insAll_isSome_iff {i : κ} {m xs : List α} :
    (afind k i (insAll k m xs)).isSome ↔
      ((afind k i m).isSome ∨ ∃ x ∈ xs, k x = i) := by
  induction xs generalizing m with
  | nil => simp [insAll]
  | cons x t ih =>
    rw [insAll, ih]
    constructor
    · rintro (h | ⟨y, hy, hky⟩)
      · rw [afind_msetBy] at h
        by_cases hik : i = k x
        · right; exact ⟨x, List.mem_cons_self _ _, hik.symm⟩
        · rw [if_neg hik] at h
          left; exact h
      · right; exact ⟨y, List.mem_cons_of_mem _ hy, hky⟩
    · rintro (h | ⟨y, hy, hky⟩)
      · left
        rw [afind_msetBy]
        by_cases hik : i = k x
        · simp [hik]
        · rw [if_neg hik]; exact h
      · rcases List.mem_cons.mp hy with rfl | hyt
        · left
          rw [afind_msetBy, if_pos hky.symm]
          simp
        · right; exact ⟨y, hyt, hky⟩

theorem insAll_nil_eq {xs : List α} (hnd : (xs.map k).Nodup) :
    insAll k [] xs = xs := by
  have h1 : insAll k ([] : List α) xs = [] ++ xs :=
    insAll_eq_append (fun x _ => rfl) hnd
  simpa using h1

end KeyedMapLemmas2

/-! ## Lemmas about the highlight apply pass (`applyHlGo`) -/

theorem applyHlGo_cons_found {m st : List Highlight} {nid : Nat}
    {h : Highlight} {t : List Highlight} {ex : Highlight}
    (hfind : afind hkey (hkey h) m = some ex) :
    applyHlGo m st nid (h :: t) =
      applyHlGo m
        (if recTSh h ≥ recTSh ex then idbPutHl st { spreadHl ex h with id := ex.id }
         else st) nid t := by
  show (match afind hkey (hkey h) m with
    | some existing =>
      applyHlGo m
        (if recTSh h ≥ recTSh existing then
          idbPutHl st { spreadHl existing h with id := existing.id }
        else st) nid t
    | none => applyHlGo m (st ++ [{ h with id := some nid }]) (nid + 1) t) = _
  rw [hfind]

theorem applyHlGo_cons_new {m st : List Highlight} {nid : Nat}
    {h : Highlight} {t : List Highlight}
    (hfind : afind hkey (hkey h) m = none) :
    applyHlGo m st nid (h :: t) =
      applyHlGo m (st ++ [{ h with id := some nid }]) (nid + 1) t := by
  show (match afind hkey (hkey h) m with
    | some existing =>
      applyHlGo m
        (if recTSh h ≥ recTSh existing then
          idbPutHl st { spreadHl existing h with id := existing.id }
        else st) nid t
    | none => applyHlGo m (st ++ [{ h with id := some nid }]) (nid + 1) t) = _
  rw [hfind]

theorem applyHlGo_append {m st : List Highlight} {nid : Nat}
    {xs ys : List Highlight} :
    applyHlGo m st nid (xs ++ ys) =
      applyHlGo m (applyHlGo m st nid xs).1 (applyHlGo m st nid xs).2 ys := by
  induction xs generalizing st nid with
  | nil => rfl
  | cons h t ih =>
    rw [List.cons_append]
    cases hfind : afind hkey (hkey h) m with
    | some ex =>
      rw [applyHlGo_cons_found hfind, applyHlGo_cons_found hfind, ih]
    | none =>
      rw [applyHlGo_cons_new hfind, applyHlGo_cons_new hfind, ih]

theorem applyHlGo_nid_le {m : List Highlight} {t : List Highlight}
    {st : List Highlight} {nid : Nat} : nid ≤ (applyHlGo m st nid t).2 := by
  induction t generalizing st nid with
  | nil => exact le_refl _
  | cons h t ih =>
    cases hfind : afind hkey (hkey h) m with
    | some ex =>
      rw [applyHlGo_cons_found hfind]
      exact ih
    | none =>
      rw [applyHlGo_cons_new hfind]
      exact le_trans (Nat.le_succ nid) ih

theorem applyHlGo_getById_untouched {m st t : List Highlight} {nid i : Nat}
    {v : Highlight}
    (hnm : ∀ x ∈ t, ∀ ex, afind hkey (hkey x) m = some ex → ex.id ≠ some i)
    (hni : i < nid) (hst : afind hid (some i) st = some v) :
    afind hid (some i) (applyHlGo m st nid t).1 = some v := by
  induction t generalizing st nid with
  | nil => exact hst
  | cons x t ih =>
    cases hfind : afind hkey (hkey x) m with
    | some ex =>
      rw [applyHlGo_cons_found hfind]
      refine ih (fun y hy => hnm y (List.mem_cons_of_mem _ hy)) hni ?_
      by_cases hts : recTSh x ≥ recTSh ex
      · rw [if_pos hts]
        unfold idbPutHl
        rw [afind_msetBy]
        have hexid : ex.id ≠ some i := hnm x (List.mem_cons_self _ _) ex hfind
        rw [if_neg (show ¬some i = hid { spreadHl ex x with id := ex.id } from
          fun hc => hexid hc.symm)]
        exact hst
      · rw [if_neg hts]
        exact hst
    | none =>
      rw [applyHlGo_cons_new hfind]
      refine ih (fun y hy => hnm y (List.mem_cons_of_mem _ hy))
        (Nat.lt_succ_of_lt hni) ?_
      rw [afind_append, hst]

theorem applyHlGo_getById_found {m st data : List Highlight} {nid i : Nat}
    {e0 hl v : Highlight}
    (hmk : afind hkey (hkey hl) m = some e0)
    (he0 : e0.id = some i)
    (hmuniq : ∀ e ∈ m, e.id = some i → e = e0)
    (hni : i < nid)
    (hnd : (data.map hkey).Nodup)
    (hhl : hl ∈ data)
    (hst : afind hid (some i) st = some v) :
    afind hid (some i) (applyHlGo m st nid data).1 =
      some (if recTSh hl ≥ recTSh e0 then { spreadHl e0 hl with id := e0.id }
        else v) := by
  obtain ⟨l1, l2, rfl⟩ := List.append_of_mem hhl
  have hknd := hnd
  rw [List.map_append, List.nodup_append] at hknd
  have hl1 : ∀ y ∈ l1, hkey y ≠ hkey hl := by
    intro y hy hc
    refine hknd.2.2 (List.mem_map_of_mem hkey hy) ?_
    rw [hc]
    exact List.mem_map_of_mem hkey (List.mem_cons_self hl l2)
  have hl2k : ∀ y ∈ l2, hkey y ≠ hkey hl := by
    intro y hy hc
    have hcons := hknd.2.1
    rw [List.map_cons, List.nodup_cons] at hcons
    apply hcons.1
    rw [← hc]
    exact List.mem_map_of_mem hkey hy
  have hmmuniq : ∀ (l : List Highlight), (∀ y ∈ l, hkey y ≠ hkey hl) →
      ∀ x ∈ l, ∀ ex, afind hkey (hkey x) m = some ex → ex.id ≠ some i := by
    intro l hlk x hx ex hfind hced
    have hex : ex = e0 := hmuniq ex (afind_mem hfind) hced
    have hkx : hkey ex = hkey x := afind_eq_key hfind
    apply hlk x hx
    rw [← hkx, hex, afind_eq_key hmk]
  rw [applyHlGo_append]
  have h1 := applyHlGo_getById_untouched (hmmuniq l1 hl1) hni hst
  have hnid1 : i < (applyHlGo m st nid l1).2 := lt_of_lt_of_le hni applyHlGo_nid_le
  rw [applyHlGo_cons_found hmk]
  by_cases hts : recTSh hl ≥ recTSh e0
  · rw [if_pos hts, if_pos hts]
    refine applyHlGo_getById_untouched (hmmuniq l2 hl2k) hnid1 ?_
    unfold idbPutHl
    rw [afind_msetBy,
      if_pos (show some i = hid { spreadHl e0 hl with id := e0.id } from he0.symm)]
  · rw [if_neg hts, if_neg hts]
    exact applyHlGo_getById_untouched (hmmuniq l2 hl2k) hnid1 h1

theorem applyHlGo_mem {m st t : List Highlight} {nid : Nat} {x : Highlight}
    (hx : x ∈ st) (hnm : ∀ e ∈ m, e.id ≠ x.id) :
    x ∈ (applyHlGo m st nid t).1 := by
  induction t generalizing st nid with
  | nil => exact hx
  | cons y t ih =>
    cases hfind : afind hkey (hkey y) m with
    | some ex =>
      rw [applyHlGo_cons_found hfind]
      refine ih ?_
      by_cases hts : recTSh y ≥ recTSh ex
      · rw [if_pos hts]
        unfold idbPutHl
        refine mem_msetBy_of_ne hx ?_
        show x.id ≠ ex.id
        exact fun hc => (hnm ex (afind_mem hfind)) hc.symm
      · rw [if_neg hts]
        exact hx
    | none =>
      rw [applyHlGo_cons_new hfind]
      exact ih (List.mem_append_left _ hx)

theorem applyHlGo_insert {m st t : List Highlight} {nid : Nat} {hl : Highlight}
    (hnone : afind hkey (hkey hl) m = none)
    (hmid : ∀ e ∈ m, ∀ j, e.id = some j → j < nid)
    (hhl : hl ∈ t) :
    ∃ n, nid ≤ n ∧ { hl with id := some n } ∈ (applyHlGo m st nid t).1 := by
  induction t generalizing st nid with
  | nil => simp at hhl
  | cons y t ih =>
    rcases List.mem_cons.mp hhl with rfl | hmem
    · rw [applyHlGo_cons_new hnone]
      refine ⟨nid, le_refl _, ?_⟩
      refine applyHlGo_mem (List.mem_append_right _ (List.mem_singleton_self _)) ?_
      intro e he hc
      have := hmid e he nid hc
      exact absurd this (lt_irrefl nid)
    · cases hfind : afind hkey (hkey y) m with
      | some ex =>
        rw [applyHlGo_cons_found hfind]
        exact ih hmid hmem
      | none =>
        rw [applyHlGo_cons_new hfind]
        obtain ⟨n, hn, hmem2⟩ := ih
          (fun e he j hj => Nat.lt_succ_of_lt (hmid e he j hj)) hmem
        exact ⟨n, le_trans (Nat.le_succ _) hn, hmem2⟩

theorem applyHlGo_id_isSome {m st t : List Highlight} {nid : Nat}
    {o : Option Nat} (hs : (afind hid o st).isSome) :
    (afind hid o (applyHlGo m st nid t).1).isSome := by
  induction t generalizing st nid with
  | nil => exact hs
  | cons y t ih =>
    cases hfind : afind hkey (hkey y) m with
    | some ex =>
      rw [applyHlGo_cons_found hfind]
      refine ih ?_
      by_cases hts : recTSh y ≥ recTSh ex
      · rw [if_pos hts]
        exact msetBy_isSome_mono hs
      · rw [if_neg hts]
        exact hs
    | none =>
      rw [applyHlGo_cons_new hfind]
      exact ih (afind_append_isSome_left hs)

/-! ## Lemmas about the book apply pass, continued -/

theorem applyBookStep_isSome {m st : List Book} {b : Book} {i : Nat}
    (hs : (afind bkey i st).isSome) :
    (afind bkey i (applyBookStep m st b)).isSome := by
  unfold applyBookStep
  cases hfind : afind bkey b.id m with
  | none =>
    show (afind bkey i (msetBy bkey st b)).isSome
    exact msetBy_isSome_mono hs
  | some ex =>
    show (afind bkey i
      (if readAt b > readAt ex then msetBy bkey st (adoptProgress ex b)
       else if readAt b = readAt ex then msetBy bkey st (adoptMeta ex b)
       else st)).isSome
    by_cases h1 : readAt b > readAt ex
    · rw [if_pos h1]
      exact msetBy_isSome_mono hs
    · rw [if_neg h1]
      by_cases h2 : readAt b = readAt ex
      · rw [if_pos h2]
        exact msetBy_isSome_mono hs
      · rw [if_neg h2]
        exact hs

theorem applyBooksGo_isSome {m st bs : List Book} {i : Nat}
    (hs : (afind bkey i st).isSome) :
    (afind bkey i (applyBooksGo m st bs)).isSome := by
  induction bs generalizing st with
  | nil => exact hs
  | cons b t ih => exact ih (applyBookStep_isSome hs)

theorem applyBooksGo_found {m st bs : List Book} {i : Nat} {e v b : Book}
    (hm : afind bkey i m = some e) (hst : afind bkey i st = some v)
    (hb : b ∈ bs) (hbi : b.id = i) (hnd : (bs.map bkey).Nodup) :
    afind bkey i (applyBooksGo m st bs) =
      some (if readAt b > readAt e then adoptProgress e b
        else if readAt b = readAt e then adoptMeta e b else v) := by
  obtain ⟨l1, l2, rfl⟩ := List.append_of_mem hb
  have hknd := hnd
  rw [List.map_append, List.nodup_append] at hknd
  have hl1 : ∀ y ∈ l1, y.id ≠ i := by
    intro y hy hc
    refine hknd.2.2 (List.mem_map_of_mem bkey hy) ?_
    rw [show bkey y = bkey b from hc.trans hbi.symm]
    exact List.mem_map_of_mem bkey (List.mem_cons_self b l2)
  have hl2 : ∀ y ∈ l2, y.id ≠ i := by
    intro y hy hc
    have hcons := hknd.2.1
    rw [List.map_cons, List.nodup_cons] at hcons
    apply hcons.1
    rw [show bkey b = bkey y from hbi.trans hc.symm]
    exact List.mem_map_of_mem bkey hy
  rw [applyBooksGo_append]
  have h1 : afind bkey i (applyBooksGo m st l1) = some v :=
    (applyBooksGo_afind_notmem hl1).trans hst
  rw [show applyBooksGo m (applyBooksGo m st l1) (b :: l2) =
      applyBooksGo m (applyBookStep m (applyBooksGo m st l1) b) l2 from rfl]
  rw [applyBooksGo_afind_notmem hl2]
  unfold applyBookStep
  rw [hbi, hm]
  have hei : e.id = i := afind_eq_key hm
  show afind bkey i
      (if readAt b > readAt e then msetBy bkey (applyBooksGo m st l1) (adoptProgress e b)
       else if readAt b = readAt e then msetBy bkey (applyBooksGo m st l1) (adoptMeta e b)
       else applyBooksGo m st l1) = _
  by_cases hgt : readAt b > readAt e
  · rw [if_pos hgt, if_pos hgt, afind_msetBy,
      if_pos (show i = bkey (adoptProgress e b) from hei.symm)]
  · rw [if_neg hgt, if_neg hgt]
    by_cases heq : readAt b = readAt e
    · rw [if_pos heq, if_pos heq, afind_msetBy,
        if_pos (show i = bkey (adoptMeta e b) from hei.symm)]
    · rw [if_neg heq, if_neg heq]
      exact h1

/-! ## Claim theorems -/

/-- C1: in `applyMergedData`, for each merged book whose id matches an
existing local book, the progress/lastLocation/lastReadAt fields are
adopted only when the merged `lastReadAt` is strictly greater than the
stored one at write time; on exact equality only title/author/
paragraphCount are updated while progress/lastLocation/lastReadAt keep
their stored values; when strictly less the stored record is left
entirely unchanged. -/
theorem applyMergedData_books_no_regression (store : Store) (data : Snapshot)
    (i : Nat) (e b : Book)
    (hnd : (data.books.map bkey).Nodup)
    (he : afind bkey i store.books = some e)
    (hb : b ∈ data.books) (hbi : b.id = i) :
    (readAt b > readAt e →
      afind bkey i (applyMergedData store data).books =
        some (adoptProgress e b)) ∧
    (readAt b = readAt e →
      afind bkey i (applyMergedData store data).books = some (adoptMeta e b) ∧
      (adoptMeta e b).progress = e.progress ∧
      (adoptMeta e b).lastLocation = e.lastLocation ∧
      (adoptMeta e b).lastReadAt = e.lastReadAt) ∧
    (readAt b < readAt e →
      afind bkey i (applyMergedData store data).books = some e) := by
  have hbooks : (applyMergedData store data).books =
      applyBooksGo store.books store.books data.books := rfl
  have hmain := applyBooksGo_found he he hb hbi hnd
  refine ⟨?_, ?_, ?_⟩
  · intro hgt
    rw [hbooks, hmain, if_pos hgt]
  · intro heq
    have hngt : ¬readAt b > readAt e := by rw [heq]; exact lt_irrefl _
    refine ⟨?_, rfl, rfl, rfl⟩
    rw [hbooks, hmain, if_neg hngt, if_pos heq]
  · intro hlt
    have hngt : ¬readAt b > readAt e := Nat.lt_asymm hlt
    have hne : ¬readAt b = readAt e := Nat.ne_of_lt hlt
    rw [hbooks, hmain, if_neg hngt, if_neg hne]

/-- C1 witness: a merged book with strictly newer `lastReadAt` adopts the
progress fields on a concrete store. -/
theorem applyMergedData_books_no_regression_witness :
    afind bkey 1
      (applyMergedData
        ⟨[], [], 1, [Book.mk 1 "T" "A" 10 (some 100) 50 none none none none]⟩
        ⟨[Book.mk 1 "T2" "A2" 10 (some 200) 80 none none none none], [], [], [], []⟩).books =
      some (adoptProgress (Book.mk 1 "T" "A" 10 (some 100) 50 none none none none)
        (Book.mk 1 "T2" "A2" 10 (some 200) 80 none none none none)) :=
  (applyMergedData_books_no_regression
    ⟨[], [], 1, [Book.mk 1 "T" "A" 10 (some 100) 50 none none none none]⟩
    ⟨[Book.mk 1 "T2" "A2" 10 (some 200) 80 none none none none], [], [], [], []⟩
    1 (Book.mk 1 "T" "A" 10 (some 100) 50 none none none none)
    (Book.mk 1 "T2" "A2" 10 (some 200) 80 none none none none)
    (by decide) (by decide) (by decide) (by decide)).1 (by decide)

/-- C2: in `mergeData`, a book id present on both sides is resolved as a
whole record by strictly-larger `lastReadAt` (absent read as 0), the local
record winning ties; an id present on one side only passes through. -/
theorem mergeData_books_lww (localD remoteD : Snapshot) (i : Nat)
    (hlnd : (localD.books.map bkey).Nodup)
    (hrnd : (remoteD.books.map bkey).Nodup) :
    (∀ l r, afind bkey i localD.books = some l →
      afind bkey i remoteD.books = some r →
      afind bkey i (mergeData localD (some remoteD)).books =
        some (if readAt r > readAt l then r else l)) ∧
    (∀ l, afind bkey i localD.books = some l →
      afind bkey i remoteD.books = none →
      afind bkey i (mergeData localD (some remoteD)).books = some l) ∧
    (∀ r, afind bkey i localD.books = none →
      afind bkey i remoteD.books = some r →
      afind bkey i (mergeData localD (some remoteD)).books = some r) := by
  have hbooks : (mergeData localD (some remoteD)).books =
      mergeBooksGo (insAll bkey [] localD.books) remoteD.books := rfl
  have hbase : ∀ j, afind bkey j (insAll bkey [] localD.books) =
      afind bkey j localD.books := by
    intro j
    rw [afind_insAll hlnd]
    cases hf : afind bkey j localD.books <;> rfl
  refine ⟨?_, ?_, ?_⟩
  · intro l r h1 h2
    rw [hbooks, mergeBooksGo_afind hrnd, h2, hbase, h1]
    show (if readAt r > readAt l then some r else some l) =
      some (if readAt r > readAt l then r else l)
    exact (apply_ite some (readAt r > readAt l) r l).symm
  · intro l h1 h2
    rw [hbooks, mergeBooksGo_afind hrnd, h2, hbase, h1]
  · intro r h1 h2
    rw [hbooks, mergeBooksGo_afind hrnd, h2, hbase, h1]

/-- C2 witness: on concrete one-book snapshots the remote book with the
strictly larger `lastReadAt` wins in its entirety. -/
theorem mergeData_books_lww_witness :
    afind bkey 1
      (mergeData
        ⟨[Book.mk 1 "T" "A" 10 (some 100) 50 none none none none], [], [], [], []⟩
        (some ⟨[Book.mk 1 "T2" "A2" 10 (some 200) 80 none none none none], [], [], [], []⟩)).books =
      some (if readAt (Book.mk 1 "T2" "A2" 10 (some 200) 80 none none none none) >
          readAt (Book.mk 1 "T" "A" 10 (some 100) 50 none none none none)
        then Book.mk 1 "T2" "A2" 10 (some 200) 80 none none none none
        else Book.mk 1 "T" "A" 10 (some 100) 50 none none none none) :=
  (mergeData_books_lww
    ⟨[Book.mk 1 "T" "A" 10 (some 100) 50 none none none none], [], [], [], []⟩
    ⟨[Book.mk 1 "T2" "A2" 10 (some 200) 80 none none none none], [], [], [], []⟩
    1 (by decide) (by decide)).1
    (Book.mk 1 "T" "A" 10 (some 100) 50 none none none none)
    (Book.mk 1 "T2" "A2" 10 (some 200) 80 none none none none)
    (by decide) (by decide)

/-- C7: merging a v2 snapshot with itself returns the same books,
vocabulary and highlights collections, record for record. -/
theorem mergeData_idempotent (S : Snapshot)
    (hb : (S.books.map bkey).Nodup) (hv : (S.vocabulary.map vkey).Nodup)
    (hh : (S.highlights.map hkey).Nodup)
    (hdv : S.deletedVocab = []) (hdh : S.deletedHighlights = [])
    (hc : ∀ w ∈ S.vocabulary, w.count ≠ 0) :
    (mergeData S (some S)).books = S.books ∧
    (mergeData S (some S)).vocabulary = S.vocabulary ∧
    (mergeData S (some S)).highlights = S.highlights := by
  refine ⟨?_, ?_, ?_⟩
  · show mergeBooks S.books S.books = S.books
    unfold mergeBooks
    rw [insAll_nil_eq hb]
    exact mergeBooksGo_self (fun b hbm => afind_self_of_nodup hb hbm)
  · show mergeVocab (buildVocabTombs S.deletedVocab) S.vocabulary S.vocabulary =
      S.vocabulary
    rw [hdv]
    show mergeVocabGo [] [] (S.vocabulary ++ S.vocabulary) = S.vocabulary
    rw [mergeVocabGo_append]
    have hfresh : mergeVocabGo [] [] S.vocabulary = S.vocabulary := by
      have h1 : mergeVocabGo [] ([] : List Vocab) S.vocabulary =
          [] ++ S.vocabulary := mergeVocabGo_fresh (fun w _ => rfl) hv
      simpa using h1
    rw [hfresh]
    exact mergeVocabGo_self hv (fun w hw => afind_self_of_nodup hv hw) hc
  · show mergeHighlights (buildHlTombs S.deletedHighlights) S.highlights
      S.highlights = S.highlights
    rw [hdh]
    show mergeHlGo [] [] (S.highlights ++ S.highlights) = S.highlights
    rw [mergeHlGo_append]
    have hfresh : mergeHlGo [] [] S.highlights = S.highlights := by
      have h1 : mergeHlGo [] ([] : List Highlight) S.highlights =
          [] ++ S.highlights := mergeHlGo_fresh (fun h _ => rfl) hh
      simpa using h1
    rw [hfresh]
    exact mergeHlGo_self (fun h hm => afind_self_of_nodup hh hm)

/-- C7 witness: self-merge of a concrete one-record-per-kind snapshot. -/
theorem mergeData_idempotent_witness :
    (mergeData
      ⟨[Book.mk 1 "T" "A" 10 (some 100) 50 none none none none],
       [Vocab.mk "w" "t" 5 "B" 1 0 0 25 none],
       [Highlight.mk 1 "txt" "T" 7 none (some 3)], [], []⟩
      (some ⟨[Book.mk 1 "T" "A" 10 (some 100) 50 none none none none],
       [Vocab.mk "w" "t" 5 "B" 1 0 0 25 none],
       [Highlight.mk 1 "txt" "T" 7 none (some 3)], [], []⟩)).books =
      [Book.mk 1 "T" "A" 10 (some 100) 50 none none none none] :=
  (mergeData_idempotent
    ⟨[Book.mk 1 "T" "A" 10 (some 100) 50 none none none none],
     [Vocab.mk "w" "t" 5 "B" 1 0 0 25 none],
     [Highlight.mk 1 "txt" "T" 7 none (some 3)], [], []⟩
    (by decide) (by decide) (by decide) (by decide) (by decide)
    (by decide)).1

/-- C3 counterexample: with candidate vocabulary records of different
`lastTouched` (addedAt 2 versus 1), swapping which snapshot is local
changes the merged record — `count` comes out 1 one way and 5 the other —
so the vocabulary merge is neither a whole-record adoption of the winner
nor independent of argument order, refuting the claim as stated. -/
theorem mergeData_vocab_order_dependent :
    (mergeData
        ⟨[], [Vocab.mk "a" "t" 2 "" 1 0 0 25 none], [], [], []⟩
        (some ⟨[], [Vocab.mk "a" "t" 1 "" 5 0 0 25 none], [], [], []⟩)).vocabulary ≠
      (mergeData
        ⟨[], [Vocab.mk "a" "t" 1 "" 5 0 0 25 none], [], [], []⟩
        (some ⟨[], [Vocab.mk "a" "t" 2 "" 1 0 0 25 none], [], [], []⟩)).vocabulary ∧
    (mergeData
        ⟨[], [Vocab.mk "a" "t" 1 "" 5 0 0 25 none], [], [], []⟩
        (some ⟨[], [Vocab.mk "a" "t" 2 "" 1 0 0 25 none], [], [], []⟩)).vocabulary ≠
      [Vocab.mk "a" "t" 2 "" 1 0 0 25 none] ∧
    recTSv (Vocab.mk "a" "t" 2 "" 1 0 0 25 none) ≠
      recTSv (Vocab.mk "a" "t" 1 "" 5 0 0 25 none) := by
  decide

/-- C3 (amended): for highlights the LWW rule holds exactly as claimed —
with different `lastTouched` values the merged record is the whole winning
record, identically in both argument orders.  For vocabulary the winner
only determines the always-present fields other than `count`/`interval`
(element-wise maxed depending on order) and may inherit the loser's
`deletedAt` when it has none, so only this field-level agreement holds, in
both argument orders. -/
theorem merge_lww_winner_and_symmetry
    (rh lh : List Highlight) (rv lv : List Vocab)
    (kh : Nat × String) (kv : String)
    (ra la : Highlight) (wa wb : Vocab)
    (hrhnd : (rh.map hkey).Nodup) (hlhnd : (lh.map hkey).Nodup)
    (hrvnd : (rv.map vkey).Nodup) (hlvnd : (lv.map vkey).Nodup)
    (hra : afind hkey kh rh = some ra) (hla : afind hkey kh lh = some la)
    (hts : recTSh ra ≠ recTSh la)
    (hwa : afind vkey kv rv = some wa) (hwb : afind vkey kv lv = some wb)
    (hvts : recTSv wa ≠ recTSv wb) :
    (afind hkey kh (mergeHighlights [] rh lh) =
      some (if recTSh la > recTSh ra then la else ra)) ∧
    (afind hkey kh (mergeHighlights [] lh rh) =
      some (if recTSh la > recTSh ra then la else ra)) ∧
    (∃ g1, afind vkey kv (mergeVocab [] rv lv) = some g1 ∧
      vocabAgreesWinner g1 (if recTSv wb > recTSv wa then wb else wa)) ∧
    (∃ g2, afind vkey kv (mergeVocab [] lv rv) = some g2 ∧
      vocabAgreesWinner g2 (if recTSv wb > recTSv wa then wb else wa)) := by
  have hpassH : ∀ (xs : List Highlight), (xs.map hkey).Nodup →
      mergeHlGo [] [] xs = xs := by
    intro xs hnd
    have h1 : mergeHlGo [] ([] : List Highlight) xs = [] ++ xs :=
      mergeHlGo_fresh (fun h _ => rfl) hnd
    simpa using h1
  have hpassV : ∀ (xs : List Vocab), (xs.map vkey).Nodup →
      mergeVocabGo [] [] xs = xs := by
    intro xs hnd
    have h1 : mergeVocabGo [] ([] : List Vocab) xs = [] ++ xs :=
      mergeVocabGo_fresh (fun w _ => rfl) hnd
    simpa using h1
  have hagree : ∀ a b : Vocab, vocabAgreesWinner (spreadVocab a b) b := by
    intro a b
    refine ⟨rfl, rfl, rfl, rfl, rfl, rfl, ?_⟩
    intro hsome
    cases hd : b.deletedAt with
    | none => rw [hd] at hsome; simp at hsome
    | some d => simp [spreadVocab, optSpread, hd]
  have hagreeMax : ∀ a b : Vocab, vocabAgreesWinner
      { spreadVocab a b with
        count := max (orDefault b.count 1) (orDefault a.count 1)
        interval := max b.interval a.interval } b := by
    intro a b
    refine ⟨rfl, rfl, rfl, rfl, rfl, rfl, ?_⟩
    intro hsome
    cases hd : b.deletedAt with
    | none => rw [hd] at hsome; simp at hsome
    | some d => simp [spreadVocab, optSpread, hd]
  refine ⟨?_, ?_, ?_, ?_⟩
  · show afind hkey kh (mergeHlGo [] [] (rh ++ lh)) = _
    rw [mergeHlGo_append, hpassH rh hrhnd]
    exact mergeHlGo_afind_mem hlhnd (afind_mem hla) (afind_eq_key hla) hra
  · show afind hkey kh (mergeHlGo [] [] (lh ++ rh)) = _
    rw [mergeHlGo_append, hpassH lh hlhnd]
    rw [mergeHlGo_afind_mem hrhnd (afind_mem hra) (afind_eq_key hra) hla]
    rcases lt_or_gt_of_ne hts with hlt | hgt
    · rw [if_neg (Nat.lt_asymm hlt), if_pos hlt]
    · rw [if_pos hgt, if_neg (Nat.lt_asymm hgt)]
  · show ∃ g1, afind vkey kv (mergeVocabGo [] [] (rv ++ lv)) = some g1 ∧ _
    rw [mergeVocabGo_append, hpassV rv hrvnd]
    rw [mergeVocabGo_afind_mem hlvnd (afind_mem hwb) (afind_eq_key hwb) hwa]
    rcases lt_or_gt_of_ne hvts with hlt | hgt
    · refine ⟨_, rfl, ?_⟩
      rw [if_pos hlt, if_pos hlt]
      exact hagree wa wb
    · refine ⟨_, rfl, ?_⟩
      rw [if_neg (Nat.lt_asymm hgt), if_neg (Nat.lt_asymm hgt)]
      exact hagreeMax wb wa
  · show ∃ g2, afind vkey kv (mergeVocabGo [] [] (lv ++ rv)) = some g2 ∧ _
    rw [mergeVocabGo_append, hpassV lv hlvnd]
    rw [mergeVocabGo_afind_mem hrvnd (afind_mem hwa) (afind_eq_key hwa) hwb]
    rcases lt_or_gt_of_ne hvts with hlt | hgt
    · refine ⟨_, rfl, ?_⟩
      rw [if_neg (Nat.lt_asymm hlt), if_pos hlt]
      exact hagreeMax wa wb
    · refine ⟨_, rfl, ?_⟩
      rw [if_pos hgt, if_neg (Nat.lt_asymm hgt)]
      exact hagree wb wa

/-- C3 witness: concrete two-sided snapshots exercising the amended
statement, highlight winner newer on the local side. -/
theorem merge_lww_winner_and_symmetry_witness :
    afind hkey (1, "x")
      (mergeHighlights [] [Highlight.mk 1 "x" "B" 10 none none]
        [Highlight.mk 1 "x" "B" 20 none none]) =
      some (if recTSh (Highlight.mk 1 "x" "B" 20 none none) >
          recTSh (Highlight.mk 1 "x" "B" 10 none none)
        then Highlight.mk 1 "x" "B" 20 none none
        else Highlight.mk 1 "x" "B" 10 none none) :=
  (merge_lww_winner_and_symmetry
    [Highlight.mk 1 "x" "B" 10 none none] [Highlight.mk 1 "x" "B" 20 none none]
    [Vocab.mk "a" "t" 1 "" 5 0 0 25 none] [Vocab.mk "a" "t" 2 "" 1 0 0 25 none]
    (1, "x") "a"
    (Highlight.mk 1 "x" "B" 10 none none) (Highlight.mk 1 "x" "B" 20 none none)
    (Vocab.mk "a" "t" 1 "" 5 0 0 25 none) (Vocab.mk "a" "t" 2 "" 1 0 0 25 none)
    (by decide) (by decide) (by decide) (by decide) (by decide) (by decide)
    (by decide) (by decide) (by decide) (by decide)).1

/-- C10: `applyMergedData` issues only put/add operations, so every
vocabulary key, highlight storage id and book id present before the apply
is still present afterwards. -/
theorem applyMergedData_never_deletes (store : Store) (data : Snapshot) :
    (∀ w : String, (afind vkey w store.vocabulary).isSome →
      (afind vkey w (applyMergedData store data).vocabulary).isSome) ∧
    (∀ o : Option Nat, (afind hid o store.highlights).isSome →
      (afind hid o (applyMergedData store data).highlights).isSome) ∧
    (∀ i : Nat, (afind bkey i store.books).isSome →
      (afind bkey i (applyMergedData store data).books).isSome) := by
  refine ⟨?_, ?_, ?_⟩
  · intro w hs
    show (afind vkey w (insAll vkey store.vocabulary data.vocabulary)).isSome
    exact insAll_isSome_mono hs
  · intro o hs
    show (afind hid o
      (applyHlGo (insAll hkey [] store.highlights) store.highlights
        store.nextHlId data.highlights).1).isSome
    exact applyHlGo_id_isSome hs
  · intro i hs
    show (afind bkey i (applyBooksGo store.books store.books data.books)).isSome
    exact applyBooksGo_isSome hs

/-- C6: in `applyMergedData`, a merged highlight matching an existing
local `bookId:text` key updates that record in place — keeping its
storage id — exactly when its `lastTouched` is at least the existing
one's (otherwise the record is untouched); a merged highlight with no
matching key is added as a new record under a fresh id; and every
pre-existing storage id survives the apply (no clear-and-reinsert). -/
theorem applyMergedData_highlights_in_place (store : Store) (data : Snapshot)
    (i : Nat) (e0 hl hln : Highlight)
    (hknd : (store.highlights.map hkey).Nodup)
    (hidnd : (store.highlights.map hid).Nodup)
    (hfresh : ∀ h ∈ store.highlights, ∀ j, h.id = some j → j < store.nextHlId)
    (hdnd : (data.highlights.map hkey).Nodup)
    (he0 : e0 ∈ store.highlights) (hei : e0.id = some i)
    (hhl : hl ∈ data.highlights) (hk : hkey hl = hkey e0)
    (hlnm : hln ∈ data.highlights)
    (hlnone : afind hkey (hkey hln) store.highlights = none) :
    (afind hid (some i) (applyMergedData store data).highlights =
      some (if recTSh hl ≥ recTSh e0 then { spreadHl e0 hl with id := some i }
        else e0)) ∧
    (∃ n, store.nextHlId ≤ n ∧ (∀ h ∈ store.highlights, h.id ≠ some n) ∧
      { hln with id := some n } ∈ (applyMergedData store data).highlights) ∧
    (∀ h ∈ store.highlights, ∃ h2 ∈ (applyMergedData store data).highlights,
      h2.id = h.id) := by
  have hproj : (applyMergedData store data).highlights =
      (applyHlGo (insAll hkey [] store.highlights) store.highlights
        store.nextHlId data.highlights).1 := rfl
  have hAe : ∀ j, afind hkey j (insAll hkey [] store.highlights) =
      afind hkey j store.highlights := by
    intro j
    rw [afind_insAll hknd]
    cases hf : afind hkey j store.highlights <;> rfl
  have hmem_st : ∀ e ∈ insAll hkey [] store.highlights, e ∈ store.highlights := by
    intro e he
    rcases mem_insAll he with h1 | h2
    · simp at h1
    · exact h2
  refine ⟨?_, ?_, ?_⟩
  · have hmk : afind hkey (hkey hl) (insAll hkey [] store.highlights) = some e0 := by
      rw [hAe, hk]
      exact afind_self_of_nodup hknd he0
    have hmuniq : ∀ e ∈ insAll hkey [] store.highlights, e.id = some i → e = e0 := by
      intro e he hc
      exact List.inj_on_of_nodup_map hidnd (hmem_st e he) he0
        (show hid e = hid e0 from hc.trans hei.symm)
    have hni : i < store.nextHlId := hfresh e0 he0 i hei
    have hst : afind hid (some i) store.highlights = some e0 := by
      have hself := afind_self_of_nodup hidnd he0
      rw [show hid e0 = some i from hei] at hself
      exact hself
    rw [hproj, applyHlGo_getById_found hmk hei hmuniq hni hdnd hhl hst, hei]
  · have hlnone2 : afind hkey (hkey hln) (insAll hkey [] store.highlights) = none := by
      rw [hAe]
      exact hlnone
    have hmid : ∀ e ∈ insAll hkey [] store.highlights, ∀ j, e.id = some j →
        j < store.nextHlId := fun e he j hj => hfresh e (hmem_st e he) j hj
    have hins : ∃ n, store.nextHlId ≤ n ∧ { hln with id := some n } ∈
        (applyHlGo (insAll hkey [] store.highlights) store.highlights
          store.nextHlId data.highlights).1 :=
      applyHlGo_insert hlnone2 hmid hlnm
    obtain ⟨n, hn, hmem⟩ := hins
    refine ⟨n, hn, ?_, ?_⟩
    · intro h hh hc
      exact absurd (lt_of_lt_of_le (hfresh h hh n hc) hn) (lt_irrefl n)
    · rw [hproj]
      exact hmem
  · intro h hh
    have hsome : (afind hid (hid h) store.highlights).isSome :=
      afind_isSome_of_mem hh
    have hres : (afind hid (hid h)
        (applyHlGo (insAll hkey [] store.highlights) store.highlights
          store.nextHlId data.highlights).1).isSome :=
      applyHlGo_id_isSome hsome
    obtain ⟨h2, hh2⟩ := Option.isSome_iff_exists.mp hres
    refine ⟨h2, ?_, ?_⟩
    · rw [hproj]
      exact afind_mem hh2
    · exact afind_eq_key hh2

/-- C6 witness: on a concrete store, a newer merged highlight with the same
key updates storage id 7 in place. -/
theorem applyMergedData_highlights_in_place_witness :
    afind hid (some 7)
      (applyMergedData
        ⟨[], [Highlight.mk 1 "hello" "B" 100 none (some 7)], 8, []⟩
        ⟨[], [],
          [Highlight.mk 1 "hello" "B" 200 none none,
           Highlight.mk 2 "new" "C" 50 none none], [], []⟩).highlights =
      some (if recTSh (Highlight.mk 1 "hello" "B" 200 none none) ≥
          recTSh (Highlight.mk 1 "hello" "B" 100 none (some 7))
        then { spreadHl (Highlight.mk 1 "hello" "B" 100 none (some 7))
                (Highlight.mk 1 "hello" "B" 200 none none) with id := some 7 }
        else Highlight.mk 1 "hello" "B" 100 none (some 7)) :=
  (applyMergedData_highlights_in_place
    ⟨[], [Highlight.mk 1 "hello" "B" 100 none (some 7)], 8, []⟩
    ⟨[], [],
      [Highlight.mk 1 "hello" "B" 200 none none,
       Highlight.mk 2 "new" "C" 50 none none], [], []⟩
    7 (Highlight.mk 1 "hello" "B" 100 none (some 7))
    (Highlight.mk 1 "hello" "B" 200 none none)
    (Highlight.mk 2 "new" "C" 50 none none)
    (by decide) (by decide) (by decide) (by decide) (by decide) (by decide)
    (by decide) (by decide) (by decide) (by decide)).1

/-- C10 witness: a concrete stored vocabulary key survives an apply that
also brings new data. -/
theorem applyMergedData_never_deletes_witness :
    (afind vkey "w"
      (applyMergedData
        ⟨[Vocab.mk "w" "t" 5 "B" 1 0 0 25 none], [], 1, []⟩
        ⟨[], [Vocab.mk "v" "u" 9 "B" 1 0 0 25 none], [], [], []⟩).vocabulary).isSome :=
  (applyMergedData_never_deletes
    ⟨[Vocab.mk "w" "t" 5 "B" 1 0 0 25 none], [], 1, []⟩
    ⟨[], [Vocab.mk "v" "u" 9 "B" 1 0 0 25 none], [], [], []⟩).1 "w" (by decide)

/-- C4 counterexample: the record `{addedAt 10, deletedAt 5}` satisfies the
spec's `isActive` (addedAt strictly greater than deletedAt) yet
`getActiveVocabulary` omits it, because the implemented filter is just
`!deletedAt`; so the active accessor does not return exactly the
`isActive` records. -/
theorem getActive_misses_spec_active_record :
    specIsActiveV (Vocab.mk "a" "t" 10 "" 1 0 0 25 (some 5)) = true ∧
    getActiveVocabulary
      ⟨[Vocab.mk "a" "t" 10 "" 1 0 0 25 (some 5)], [], 1, []⟩ = [] ∧
    getAllVocabulary
      ⟨[Vocab.mk "a" "t" 10 "" 1 0 0 25 (some 5)], [], 1, []⟩ =
      [Vocab.mk "a" "t" 10 "" 1 0 0 25 (some 5)] := by
  decide

/-- C4 (amended): the active accessors return exactly the records whose
`deletedAt` is JS-falsy (absent or 0), while the full accessors return
every record; on records without a `deletedAt` this coincides with the
spec's `isActive` rule. -/
theorem getActive_filters_deletedAt (store : Store) (w : Vocab) (h : Highlight) :
    (w ∈ getActiveVocabulary store ↔
      w ∈ getAllVocabulary store ∧ ¬numTruthy w.deletedAt) ∧
    (h ∈ getActiveHighlights store ↔
      h ∈ getAllHighlights store ∧ ¬numTruthy h.deletedAt) ∧
    (w.deletedAt = none → specIsActiveV w = true ∧
      (w ∈ getActiveVocabulary store ↔ w ∈ getAllVocabulary store)) := by
  refine ⟨?_, ?_, ?_⟩
  · simp [getActiveVocabulary, List.mem_filter]
  · simp [getActiveHighlights, List.mem_filter]
  · intro hdn
    constructor
    · simp [specIsActiveV, hdn]
    · simp [getActiveVocabulary, List.mem_filter, numTruthy, hdn]

/-- C4 witness: a record with no `deletedAt` is spec-active and listed by
the active accessor exactly when stored. -/
theorem getActive_filters_deletedAt_witness :
    specIsActiveV (Vocab.mk "b" "t" 4 "" 1 0 0 25 none) = true ∧
    (Vocab.mk "b" "t" 4 "" 1 0 0 25 none ∈ getActiveVocabulary
        ⟨[Vocab.mk "b" "t" 4 "" 1 0 0 25 none], [], 1, []⟩ ↔
      Vocab.mk "b" "t" 4 "" 1 0 0 25 none ∈ getAllVocabulary
        ⟨[Vocab.mk "b" "t" 4 "" 1 0 0 25 none], [], 1, []⟩) :=
  (getActive_filters_deletedAt
    ⟨[Vocab.mk "b" "t" 4 "" 1 0 0 25 none], [], 1, []⟩
    (Vocab.mk "b" "t" 4 "" 1 0 0 25 none)
    (Highlight.mk 1 "x" "B" 0 none none)).2.2 rfl

/-- C5: re-adding the soft-deleted word "ephemeral" (prior
`deletedAt = 200`) at time 300 through `saveWord` clears `deletedAt` but
keeps the old `addedAt = 100` (`existing.addedAt || Date.now()`), so the
revived record's `addedAt` does not exceed the prior `deletedAt` and the
revival loses the next LWW merge against a replica still holding the
tombstoned copy — the word comes back deleted.  `saveHighlight`, by
contrast, does refresh `addedAt` to the incoming time as the spec
describes. -/
theorem saveWord_revival_keeps_old_addedAt :
    afind vkey "ephemeral"
      (saveWord [Vocab.mk "ephemeral" "t" 100 "" 1 0 0 25 (some 200)] 300
        "ephemeral" "x" "b") =
      some (Vocab.mk "ephemeral" "t" 100 "" 2 0 0 25 none) ∧
    ¬(Vocab.mk "ephemeral" "t" 100 "" 2 0 0 25 none).addedAt > 200 ∧
    mergeVocab [] [Vocab.mk "ephemeral" "t" 100 "" 1 0 0 25 (some 200)]
        [Vocab.mk "ephemeral" "t" 100 "" 2 0 0 25 none] =
      [Vocab.mk "ephemeral" "t" 100 "" 2 0 0 25 (some 200)] ∧
    (saveHighlight [Highlight.mk 7 "hello" "B" 100 (some 200) (some 7)] 8 300
        (Highlight.mk 7 "hello" "B" 0 none none)).1 =
      [Highlight.mk 7 "hello" "B" 300 none (some 7)] ∧
    (300 : Nat) > 200 := by
  decide

/-- C8: the per-book translation merge is a pure key-union — a hash on the
local side keeps the local translation, a hash only on the remote side is
retained, the merged keys are exactly the union of both hash sets with no
duplicates, and the merged size is the union's cardinality. -/
theorem syncBookTranslations_key_union (rs ls : List (String × String))
    (hhash : String) (p : String × String)
    (hrnd : (rs.map Prod.fst).Nodup) (hlnd : (ls.map Prod.fst).Nodup) :
    (afind Prod.fst hhash ls = some p →
      afind Prod.fst hhash (mergeTranslations (some rs) ls) = some p) ∧
    (afind Prod.fst hhash ls = none →
      afind Prod.fst hhash (mergeTranslations (some rs) ls) =
        afind Prod.fst hhash rs) ∧
    ((afind Prod.fst hhash (mergeTranslations (some rs) ls)).isSome ↔
      (afind Prod.fst hhash rs).isSome ∨ (afind Prod.fst hhash ls).isSome) ∧
    ((mergeTranslations (some rs) ls).map Prod.fst).Nodup ∧
    (mergeTranslations (some rs) ls).length =
      ((rs.map Prod.fst).toFinset ∪ (ls.map Prod.fst).toFinset).card := by
  have hm0 : mergeTranslations (some rs) ls = insAll Prod.fst rs ls := by
    show insAll Prod.fst (insAll Prod.fst [] rs) ls = _
    rw [insAll_nil_eq hrnd]
  refine ⟨?_, ?_, ?_, ?_, ?_⟩
  · intro hp
    rw [hm0, afind_insAll hlnd, hp]
  · intro hnone
    rw [hm0, afind_insAll hlnd, hnone]
  · rw [hm0, insAll_isSome_iff]
    constructor
    · rintro (h | hex)
      · left; exact h
      · right; exact afind_isSome_iff_exists.mpr hex
    · rintro (h | h)
      · left; exact h
      · right; exact afind_isSome_iff_exists.mp h
  · rw [hm0]
    exact insAll_keys_nodup hrnd
  · rw [hm0]
    have hnd2 : ((insAll Prod.fst rs ls).map Prod.fst).Nodup :=
      insAll_keys_nodup hrnd
    have hfs : ((insAll Prod.fst rs ls).map (Prod.fst : String × String → String)).toFinset =
        (rs.map Prod.fst).toFinset ∪ (ls.map Prod.fst).toFinset := by
      apply Finset.ext
      intro a
      simp only [List.mem_toFinset, Finset.mem_union]
      rw [mem_keys_iff, insAll_isSome_iff, ← mem_keys_iff, ← List.mem_map]
    rw [show (insAll Prod.fst rs ls).length =
        ((insAll Prod.fst rs ls).map (Prod.fst : String × String → String)).length
      from (List.length_map _ _).symm]
    rw [← List.toFinset_card_of_nodup hnd2, hfs]

/-- C8 witness: two concrete one-entry translation sides with distinct
hashes merge to both entries. -/
theorem syncBookTranslations_key_union_witness :
    afind Prod.fst "h1" (mergeTranslations (some [("h1", "remote")])
      [("h2", "local")]) = afind Prod.fst "h1" [("h1", "remote")] :=
  (syncBookTranslations_key_union [("h1", "remote")] [("h2", "local")]
    "h1" ("h2", "local") (by decide) (by decide)).2.1 (by decide)

/-- C9 counterexample: with both the metadata download and upload
rejecting, `syncWithDropbox` still returns `{ success: true }` — the
failure status the claim requires is never reported, because both stages
are caught in-line and the run continues. -/
theorem syncWithDropbox_reports_success_despite_failures :
    (syncWithDropbox
      ⟨true, true, Except.error "network error", Except.error "network error",
        Except.ok ()⟩ ⟨[], [], 1, []⟩).1 =
      { success := true, error := none } := rfl

/-- C9 (amended): a download rejection is caught: a human-readable
failure message is emitted through the progress callback, the remote is
treated as absent and the run continues to apply the local export back,
returning success; an upload rejection likewise never changes the
resulting store, which depends only on `applyMergedData`.  Only an
exception outside these guarded stages produces `success = false`. -/
theorem syncWithDropbox_catches_download_failure (env : SyncEnv) (store : Store)
    (msg : String) (hc : env.configured = true) (hl : env.loggedIn = true)
    (hdl : env.download = Except.error msg) (htail : env.tail = Except.ok ()) :
    (syncWithDropbox env store).1 = { success := true, error := none } ∧
    (syncWithDropbox env store).2.1 =
      applyMergedData store (exportLocalData store) ∧
    ("❌ 下载失败: " ++ msg) ∈ (syncWithDropbox env store).2.2 ∧
    (∀ up, (syncWithDropbox { env with upload := up } store).2.1 =
      (syncWithDropbox env store).2.1) := by
  refine ⟨?_, ?_, ?_, ?_⟩
  · simp [syncWithDropbox, hc, hl, hdl, htail]
  · simp [syncWithDropbox, hc, hl, hdl, htail, mergeData]
  · simp [syncWithDropbox, hc, hl, hdl, htail]
  · intro up
    simp [syncWithDropbox, hc, hl, hdl, htail]

/-- C9 witness: concrete failing download with healthy upload still
returns success. -/
theorem syncWithDropbox_catches_download_failure_witness :
    (syncWithDropbox
      ⟨true, true, Except.error "offline", Except.ok (), Except.ok ()⟩
      ⟨[], [], 1, []⟩).1 = { success := true, error := none } :=
  (syncWithDropbox_catches_download_failure
    ⟨true, true, Except.error "offline", Except.ok (), Except.ok ()⟩
    ⟨[], [], 1, []⟩ "offline" rfl rfl rfl rfl).1

end Nixbook
